import Mathlib

/-!
Verification of the maze generator / solver program.

This file shallowly embeds the Python sources (`maze_generator.py`,
`search_algorithms/{dfs,bfs,astar}.py`, `mdp_algorithms/{value_iteration,
policy_iteration}.py`, `utils.py`) in Lean and proves or refutes the
specification claims about them.

Conventions of the embedding:
* A cell coordinate is a pair `(row, col) : Nat × Nat` (Python tuples);
  where the Python code can produce negative coordinates we use `Int`.
* Python's mutable per-cell wall flags become a total function
  `Coord → Cell`; out-of-bounds cells simply keep their initial value,
  mirroring the fact that the Python code never touches them.
* Python dictionaries with `.get` (returning `None` for a missing key)
  become total functions into `Option _`.
* Python floats are modelled as rationals `ℚ`; every comparison the
  algorithms make on the concrete runs analysed here is far away from
  the rounding error of binary floats, so `ℚ` is faithful.
* Unbounded `while` loops become fuel-indexed recursions; where the
  loop provably terminates we also prove that the given fuel suffices,
  so the fuelled function agrees with the Python semantics.
-/

namespace MazeSpec

/-- A cell coordinate `(row, col)`. -/
abbrev Coord := Nat × Nat

/-- The four wall flags of a maze cell, in the Python order
`[top, right, bottom, left]`; `true` means the wall is present
(`Cell.__init__`: `self.walls = [True, True, True, True]`). -/
structure Cell where
  top : Bool
  right : Bool
  bottom : Bool
  left : Bool
deriving DecidableEq, Repr

/-- A fresh cell: all four walls present. -/
def Cell.init : Cell := ⟨true, true, true, true⟩

/-- `current.walls[0] = False` -/
def Cell.openTop (c : Cell) : Cell := ⟨false, c.right, c.bottom, c.left⟩

/-- `current.walls[1] = False` -/
def Cell.openRight (c : Cell) : Cell := ⟨c.top, false, c.bottom, c.left⟩

/-- `current.walls[2] = False` -/
def Cell.openBottom (c : Cell) : Cell := ⟨c.top, c.right, false, c.left⟩

/-- `current.walls[3] = False` -/
def Cell.openLeft (c : Cell) : Cell := ⟨c.top, c.right, c.bottom, false⟩

/-- The `Maze` object of `maze_generator.py` (the rendering-only
`cell_size` field is dropped): a `rows × cols` grid of cells.  The grid
is modelled as a total function; only in-bounds cells are ever read or
written by the embedded code. -/
structure Maze where
  rows : Nat
  cols : Nat
  walls : Coord → Cell

/-- `Maze.__init__(rows, cols, cell_size)`: stores the dimensions and
creates a grid of fresh cells.  Note: there is no validation of
`rows`/`cols` whatsoever. -/
def Maze.init (rows cols : Nat) : Maze :=
  { rows := rows, cols := cols, walls := fun _ => Cell.init }

/-- Pointwise update of a wall grid at one cell. -/
def setWall (w : Coord → Cell) (p : Coord) (f : Cell → Cell) : Coord → Cell :=
  fun q => if q = p then f (w q) else w q

/-- In-bounds predicate for a coordinate (`0 ≤ row < rows` and
`0 ≤ col < cols`; the lower bounds are automatic for `Nat`). -/
def inBounds (m : Maze) (p : Coord) : Prop := p.1 < m.rows ∧ p.2 < m.cols

instance (m : Maze) (p : Coord) : Decidable (inBounds m p) := by
  unfold inBounds; infer_instance

/-- `Maze.index(row, col)`: the cell coordinate if it is within bounds,
otherwise `None`.  Takes `Int` arguments because the generator calls it
with `row - 1` / `col - 1`, which can be `-1` in Python. -/
def Maze.index (m : Maze) (row col : Int) : Option Coord :=
  if row < 0 ∨ col < 0 ∨ row ≥ (m.rows : Int) ∨ col ≥ (m.cols : Int) then none
  else some (row.toNat, col.toNat)

/-- `get_neighbors_coord(cell_coord, maze)`: the neighbouring cell
coordinates reachable through open walls, in the source order
top, right, bottom, left, with exactly the source's bound guards. -/
def neighborsCoord (p : Coord) (m : Maze) : List Coord :=
  let cell := m.walls p
  (if cell.top = false ∧ 0 < p.1 then [(p.1 - 1, p.2)] else []) ++
  (if cell.right = false ∧ p.2 < m.cols - 1 then [(p.1, p.2 + 1)] else []) ++
  (if cell.bottom = false ∧ p.1 < m.rows - 1 then [(p.1 + 1, p.2)] else []) ++
  (if cell.left = false ∧ 0 < p.2 then [(p.1, p.2 - 1)] else [])

/-- The four moves `"U" | "R" | "D" | "L"`. -/
inductive Act where
  | U | R | D | L
deriving DecidableEq, Repr

/-- `get_possible_actions(maze, state)` (identical in `utils.py`,
`value_iteration.py` and `policy_iteration.py`): the legal
`(action, next_state)` pairs from `state`, in source order. -/
def possibleActions (m : Maze) (s : Coord) : List (Act × Coord) :=
  let cell := m.walls s
  (if cell.top = false ∧ 0 < s.1 then [(Act.U, (s.1 - 1, s.2))] else []) ++
  (if cell.right = false ∧ s.2 < m.cols - 1 then [(Act.R, (s.1, s.2 + 1))] else []) ++
  (if cell.bottom = false ∧ s.1 < m.rows - 1 then [(Act.D, (s.1 + 1, s.2))] else []) ++
  (if cell.left = false ∧ 0 < s.2 then [(Act.L, (s.1, s.2 - 1))] else [])

/-- `Maze.remove_walls(current, next_cell)`: clears the shared boundary
flags between the two cells, deciding the direction from the coordinate
differences `dx = current.col - next_cell.col`,
`dy = current.row - next_cell.row` (computed in `Int`, as in Python).
The two `if`-chains of the source are two sequential conditional grid
updates. -/
def removeWalls (m : Maze) (cur nxt : Coord) : Maze :=
  let dx : Int := (cur.2 : Int) - (nxt.2 : Int)
  let dy : Int := (cur.1 : Int) - (nxt.1 : Int)
  let w1 :=
    if dx = 1 then setWall (setWall m.walls cur Cell.openLeft) nxt Cell.openRight
    else if dx = -1 then setWall (setWall m.walls cur Cell.openRight) nxt Cell.openLeft
    else m.walls
  let w2 :=
    if dy = 1 then setWall (setWall w1 cur Cell.openTop) nxt Cell.openBottom
    else if dy = -1 then setWall (setWall w1 cur Cell.openBottom) nxt Cell.openTop
    else w1
  { m with walls := w2 }

/-- Grid adjacency: two in-bounds cells sharing an edge of the grid
(independently of walls). -/
def gridAdj (m : Maze) (a b : Coord) : Prop :=
  inBounds m a ∧ inBounds m b ∧
    ((a.1 = b.1 ∧ (a.2 + 1 = b.2 ∨ b.2 + 1 = a.2)) ∨
     (a.2 = b.2 ∧ (a.1 + 1 = b.1 ∨ b.1 + 1 = a.1)))

instance (m : Maze) (a b : Coord) : Decidable (gridAdj m a b) := by
  unfold gridAdj; infer_instance

/-- Wall symmetry: every interior boundary is recorded consistently on
its two sides (`(r,c).right = (r,c+1).left` and
`(r,c).bottom = (r+1,c).top`). -/
def WallSym (m : Maze) : Prop :=
  (∀ r c, r < m.rows → c + 1 < m.cols →
    (m.walls (r, c)).right = (m.walls (r, c + 1)).left) ∧
  (∀ r c, r + 1 < m.rows → c < m.cols →
    (m.walls (r, c)).bottom = (m.walls (r + 1, c)).top)

end MazeSpec

namespace MazeSpec

theorem removeWalls_rows (m : Maze) (a b : Coord) :
    (removeWalls m a b).rows = m.rows := rfl

theorem removeWalls_cols (m : Maze) (a b : Coord) :
    (removeWalls m a b).cols = m.cols := rfl

/-- `remove_walls` when the second cell is the right neighbour of the
first (`dx = -1`, `dy = 0`). -/
theorem removeWalls_right (m : Maze) (r c : Nat) :
    (removeWalls m (r, c) (r, c + 1)).walls =
      setWall (setWall m.walls (r, c) Cell.openRight) (r, c + 1) Cell.openLeft := by
  unfold removeWalls
  dsimp only
  split_ifs <;> first | rfl | omega

/-- `remove_walls` when the second cell is the left neighbour of the
first (`dx = 1`, `dy = 0`). -/
theorem removeWalls_left (m : Maze) (r c : Nat) :
    (removeWalls m (r, c + 1) (r, c)).walls =
      setWall (setWall m.walls (r, c + 1) Cell.openLeft) (r, c) Cell.openRight := by
  unfold removeWalls
  dsimp only
  split_ifs <;> first | rfl | omega

/-- `remove_walls` when the second cell is the bottom neighbour of the
first (`dx = 0`, `dy = -1`). -/
theorem removeWalls_down (m : Maze) (r c : Nat) :
    (removeWalls m (r, c) (r + 1, c)).walls =
      setWall (setWall m.walls (r, c) Cell.openBottom) (r + 1, c) Cell.openTop := by
  unfold removeWalls
  dsimp only
  split_ifs <;> first | rfl | omega

/-- `remove_walls` when the second cell is the top neighbour of the
first (`dx = 0`, `dy = 1`). -/
theorem removeWalls_up (m : Maze) (r c : Nat) :
    (removeWalls m (r + 1, c) (r, c)).walls =
      setWall (setWall m.walls (r + 1, c) Cell.openTop) (r, c) Cell.openBottom := by
  unfold removeWalls
  dsimp only
  split_ifs <;> first | rfl | omega

theorem setWall_same (w : Coord → Cell) (p : Coord) (f : Cell → Cell) :
    setWall w p f p = f (w p) := by simp [setWall]

theorem setWall_other (w : Coord → Cell) (p q : Coord) (f : Cell → Cell)
    (h : q ≠ p) : setWall w p f q = w q := by simp [setWall, h]

end MazeSpec

namespace MazeSpec

theorem setWall_comm (w : Coord → Cell) (p q : Coord) (f g : Cell → Cell) (h : p ≠ q) :
    setWall (setWall w p f) q g = setWall (setWall w q g) p f := by
  funext x
  simp only [setWall]
  by_cases h1 : x = q <;> by_cases h2 : x = p <;> simp [h1, h2] <;> simp_all

/-- Opening the `(r,c) | (r,c+1)` boundary on both sides preserves wall
symmetry. -/
theorem wallSym_openPairH (m : Maze) (r c : Nat) (hs : WallSym m) :
    WallSym { m with
      walls := setWall (setWall m.walls (r, c) Cell.openRight) (r, c + 1) Cell.openLeft } := by
  obtain ⟨hsH, hsV⟩ := hs
  constructor
  · intro r' c' h1 h2
    simp only [setWall, Cell.openLeft, Cell.openRight]
    split_ifs <;>
      simp only [Prod.mk.injEq, not_and] at * <;>
      first
        | rfl
        | omega
        | exact hsH r' c' h1 h2
  · intro r' c' h1 h2
    simp only [setWall, Cell.openLeft, Cell.openRight]
    split_ifs <;>
      simp only [Prod.mk.injEq, not_and] at * <;>
      first
        | rfl
        | omega
        | exact hsV r' c' h1 h2

/-- Opening the `(r,c) | (r+1,c)` boundary on both sides preserves wall
symmetry. -/
theorem wallSym_openPairV (m : Maze) (r c : Nat) (hs : WallSym m) :
    WallSym { m with
      walls := setWall (setWall m.walls (r, c) Cell.openBottom) (r + 1, c) Cell.openTop } := by
  obtain ⟨hsH, hsV⟩ := hs
  constructor
  · intro r' c' h1 h2
    simp only [setWall, Cell.openTop, Cell.openBottom]
    split_ifs <;>
      simp only [Prod.mk.injEq, not_and] at * <;>
      first
        | rfl
        | omega
        | exact hsH r' c' h1 h2
  · intro r' c' h1 h2
    simp only [setWall, Cell.openTop, Cell.openBottom]
    split_ifs <;>
      simp only [Prod.mk.injEq, not_and] at * <;>
      first
        | rfl
        | omega
        | exact hsV r' c' h1 h2

/-- `remove_walls` on two grid-adjacent cells preserves wall symmetry. -/
theorem wallSym_congr (m m' : Maze) (hs : WallSym m) (h1 : m.rows = m'.rows)
    (h2 : m.cols = m'.cols) (h3 : m.walls = m'.walls) : WallSym m' := by
  unfold WallSym at *
  rw [← h1, ← h2, ← h3]
  exact hs

theorem wallSym_removeWalls (m : Maze) (a b : Coord) (hs : WallSym m)
    (hadj : gridAdj m a b) : WallSym (removeWalls m a b) := by
  obtain ⟨ha, hb, hrel⟩ := hadj
  obtain ⟨ar, ac⟩ := a
  obtain ⟨br, bc⟩ := b
  rcases hrel with ⟨hr, hc | hc⟩ | ⟨hc, hr | hr⟩
  · -- b is the right neighbour of a
    simp only at hr hc
    obtain rfl := hr
    obtain rfl := hc
    exact wallSym_congr _ _ (wallSym_openPairH m ar ac hs) rfl rfl
      (removeWalls_right m ar ac).symm
  · -- b is the left neighbour of a
    simp only at hr hc
    obtain rfl := hr
    obtain rfl := hc.symm
    have hcomm : setWall (setWall m.walls (ar, bc + 1) Cell.openLeft) (ar, bc) Cell.openRight =
        setWall (setWall m.walls (ar, bc) Cell.openRight) (ar, bc + 1) Cell.openLeft := by
      apply setWall_comm
      intro hcontra
      have := congrArg Prod.snd hcontra
      simp at this
    refine wallSym_congr _ _ (wallSym_openPairH m ar bc hs) rfl rfl ?_
    rw [removeWalls_left m ar bc, hcomm]
  · -- b is the bottom neighbour of a
    simp only at hr hc
    obtain rfl := hc
    obtain rfl := hr
    exact wallSym_congr _ _ (wallSym_openPairV m ar ac hs) rfl rfl
      (removeWalls_down m ar ac).symm
  · -- b is the top neighbour of a
    simp only at hr hc
    obtain rfl := hc
    obtain rfl := hr.symm
    have hcomm : setWall (setWall m.walls (br + 1, ac) Cell.openTop) (br, ac) Cell.openBottom =
        setWall (setWall m.walls (br, ac) Cell.openBottom) (br + 1, ac) Cell.openTop := by
      apply setWall_comm
      intro hcontra
      have := congrArg Prod.fst hcontra
      simp at this
    refine wallSym_congr _ _ (wallSym_openPairV m br ac hs) rfl rfl ?_
    rw [removeWalls_up m br ac, hcomm]

end MazeSpec

namespace MazeSpec

theorem mem_ite_singleton {α : Type} (P : Prop) [Decidable P] (x q : α) :
    (q ∈ if P then [x] else []) ↔ P ∧ q = x := by
  split_ifs <;> simp_all

/-- Membership characterization of `get_neighbors_coord`. -/
theorem mem_neighborsCoord (m : Maze) (p q : Coord) :
    q ∈ neighborsCoord p m ↔
      ((m.walls p).top = false ∧ 0 < p.1 ∧ q = (p.1 - 1, p.2)) ∨
      ((m.walls p).right = false ∧ p.2 < m.cols - 1 ∧ q = (p.1, p.2 + 1)) ∨
      ((m.walls p).bottom = false ∧ p.1 < m.rows - 1 ∧ q = (p.1 + 1, p.2)) ∨
      ((m.walls p).left = false ∧ 0 < p.2 ∧ q = (p.1, p.2 - 1)) := by
  unfold neighborsCoord
  simp only [List.mem_append, mem_ite_singleton, and_assoc]
  tauto

/-- The next-states listed by `get_possible_actions` are exactly
`get_neighbors_coord` (same guards, same order). -/
theorem possibleActions_snd (m : Maze) (s : Coord) :
    (possibleActions m s).map Prod.snd = neighborsCoord s m := by
  unfold possibleActions neighborsCoord
  dsimp only
  split_ifs <;> simp_all

/-- Under wall symmetry, the neighbour relation is symmetric on
in-bounds cells (one direction). -/
theorem neighborsCoord_symm_mp (m : Maze) (hs : WallSym m) (a b : Coord)
    (ha : inBounds m a) (hb : inBounds m b) :
    b ∈ neighborsCoord a m → a ∈ neighborsCoord b m := by
  obtain ⟨ha1, ha2⟩ := ha
  rw [mem_neighborsCoord, mem_neighborsCoord]
  rintro (⟨hw, hgt, rfl⟩ | ⟨hw, hlt, rfl⟩ | ⟨hw, hlt, rfl⟩ | ⟨hw, hgt, rfl⟩) <;> dsimp only
  · -- b above a; a is below b
    refine Or.inr (Or.inr (Or.inl ⟨?_, by omega, by rw [Prod.mk.injEq]; omega⟩))
    have e : a.1 - 1 + 1 = a.1 := by omega
    have h2 := hs.2 (a.1 - 1) a.2 (by omega) ha2
    rw [e] at h2
    rw [h2]
    exact hw
  · -- b right of a; a is left of b
    refine Or.inr (Or.inr (Or.inr ⟨?_, by omega, by rw [Prod.mk.injEq]; omega⟩))
    have h2 := hs.1 a.1 a.2 ha1 (by omega)
    rw [← h2]
    exact hw
  · -- b below a; a is above b
    refine Or.inl ⟨?_, by omega, by rw [Prod.mk.injEq]; omega⟩
    have h2 := hs.2 a.1 a.2 (by omega) ha2
    rw [← h2]
    exact hw
  · -- b left of a; a is right of b
    refine Or.inr (Or.inl ⟨?_, by omega, by rw [Prod.mk.injEq]; omega⟩)
    have e : a.2 - 1 + 1 = a.2 := by omega
    have h2 := hs.1 a.1 (a.2 - 1) ha1 (by omega)
    rw [e] at h2
    rw [h2]
    exact hw

theorem neighborsCoord_symm (m : Maze) (hs : WallSym m) (a b : Coord)
    (ha : inBounds m a) (hb : inBounds m b) :
    b ∈ neighborsCoord a m ↔ a ∈ neighborsCoord b m :=
  ⟨neighborsCoord_symm_mp m hs a b ha hb, neighborsCoord_symm_mp m hs b a hb ha⟩

/-- Folding a sequence of `remove_walls` calls over a maze (what
`generate_maze` does to the grid, abstracted over the choice of
pairs). -/
def applyRemoveWalls (m : Maze) (calls : List (Coord × Coord)) : Maze :=
  calls.foldl (fun mm cl => removeWalls mm cl.1 cl.2) m

theorem applyRemoveWalls_rows (m : Maze) (calls : List (Coord × Coord)) :
    (applyRemoveWalls m calls).rows = m.rows := by
  induction calls generalizing m with
  | nil => rfl
  | cons cl tl ih => exact (ih (removeWalls m cl.1 cl.2)).trans rfl

theorem applyRemoveWalls_cols (m : Maze) (calls : List (Coord × Coord)) :
    (applyRemoveWalls m calls).cols = m.cols := by
  induction calls generalizing m with
  | nil => rfl
  | cons cl tl ih => exact (ih (removeWalls m cl.1 cl.2)).trans rfl

theorem gridAdj_congr (m m' : Maze) (h1 : m.rows = m'.rows) (h2 : m.cols = m'.cols)
    (a b : Coord) : gridAdj m a b ↔ gridAdj m' a b := by
  unfold gridAdj inBounds
  rw [h1, h2]

/-- The freshly constructed maze is wall-symmetric (all walls up). -/
theorem wallSym_init (rows cols : Nat) : WallSym (Maze.init rows cols) :=
  ⟨fun _ _ _ _ => rfl, fun _ _ _ _ => rfl⟩

theorem wallSym_applyRemoveWalls (m : Maze) (calls : List (Coord × Coord))
    (hs : WallSym m) (hadj : ∀ cl ∈ calls, gridAdj m cl.1 cl.2) :
    WallSym (applyRemoveWalls m calls) := by
  induction calls generalizing m with
  | nil => exact hs
  | cons cl tl ih =>
    refine ih (removeWalls m cl.1 cl.2)
      (wallSym_removeWalls m cl.1 cl.2 hs (hadj cl (by simp))) ?_
    intro cl' hcl'
    exact (gridAdj_congr m (removeWalls m cl.1 cl.2) rfl rfl cl'.1 cl'.2).mp
      (hadj cl' (by simp [hcl']))

end MazeSpec

namespace MazeSpec

/-- Claim C10: wall symmetry is an invariant kept by generation.  After
`Maze` construction and any sequence of `remove_walls` calls on
grid-adjacent cells, every shared boundary is open on one side iff it is
open on the other (`(r,c).right = (r,c+1).left` and
`(r,c).bottom = (r+1,c).top`), the adjacency relation computed by
`get_neighbors_coord` is symmetric on in-bounds cells, and
`get_possible_actions` computes exactly the same adjacency (its listed
next-states are `get_neighbors_coord`). -/
theorem C10_wall_symmetry (rows cols : Nat) (calls : List (Coord × Coord))
    (hadj : ∀ cl ∈ calls, gridAdj (Maze.init rows cols) cl.1 cl.2) :
    WallSym (applyRemoveWalls (Maze.init rows cols) calls) ∧
    (∀ a b : Coord, inBounds (applyRemoveWalls (Maze.init rows cols) calls) a →
      inBounds (applyRemoveWalls (Maze.init rows cols) calls) b →
      (b ∈ neighborsCoord a (applyRemoveWalls (Maze.init rows cols) calls) ↔
       a ∈ neighborsCoord b (applyRemoveWalls (Maze.init rows cols) calls))) ∧
    (∀ s : Coord, (possibleActions (applyRemoveWalls (Maze.init rows cols) calls) s).map
      Prod.snd = neighborsCoord s (applyRemoveWalls (Maze.init rows cols) calls)) := by
  have hsym : WallSym (applyRemoveWalls (Maze.init rows cols) calls) :=
    wallSym_applyRemoveWalls (Maze.init rows cols) calls (wallSym_init rows cols) hadj
  refine ⟨hsym, ?_, ?_⟩
  · intro a b ha hb
    exact neighborsCoord_symm _ hsym a b ha hb
  · intro s
    exact possibleActions_snd _ s

/-- Witness for C10 at a concrete instance: a 2×2 maze with the single
carving call `remove_walls((0,0),(0,1))`. -/
theorem C10_wall_symmetry_witness :
    (∀ cl ∈ [(((0:Nat),(0:Nat)), ((0:Nat),(1:Nat)))],
      gridAdj (Maze.init 2 2) cl.1 cl.2) ∧
    (WallSym (applyRemoveWalls (Maze.init 2 2) [(((0:Nat),(0:Nat)), ((0:Nat),(1:Nat)))]) ∧
    (∀ a b : Coord,
      inBounds (applyRemoveWalls (Maze.init 2 2) [(((0:Nat),(0:Nat)), ((0:Nat),(1:Nat)))]) a →
      inBounds (applyRemoveWalls (Maze.init 2 2) [(((0:Nat),(0:Nat)), ((0:Nat),(1:Nat)))]) b →
      (b ∈ neighborsCoord a
          (applyRemoveWalls (Maze.init 2 2) [(((0:Nat),(0:Nat)), ((0:Nat),(1:Nat)))]) ↔
       a ∈ neighborsCoord b
          (applyRemoveWalls (Maze.init 2 2) [(((0:Nat),(0:Nat)), ((0:Nat),(1:Nat)))]))) ∧
    (∀ s : Coord, (possibleActions
        (applyRemoveWalls (Maze.init 2 2) [(((0:Nat),(0:Nat)), ((0:Nat),(1:Nat)))]) s).map
      Prod.snd = neighborsCoord s
        (applyRemoveWalls (Maze.init 2 2) [(((0:Nat),(0:Nat)), ((0:Nat),(1:Nat)))]))) :=
  ⟨by decide, C10_wall_symmetry 2 2 [(((0:Nat),(0:Nat)), ((0:Nat),(1:Nat)))] (by decide)⟩

/-- Claim C9 (refuted by the code): `Maze.__init__` performs no
validation whatsoever; constructing a maze with `rows = 0` (or any
non-positive dimension) succeeds and yields a `Maze` object with the
given dimensions and an (empty) grid, rather than raising a
configuration error. -/
theorem C9_no_dimension_validation :
    (Maze.init 0 5).rows = 0 ∧ (Maze.init 0 5).cols = 5 ∧
    (Maze.init 0 0).rows = 0 ∧
    ∀ p : Coord, (Maze.init 0 5).walls p = Cell.init := by
  exact ⟨rfl, rfl, rfl, fun _ => rfl⟩

end MazeSpec

namespace MazeSpec

/-! ## The MDP solvers (`value_iteration.py`, `policy_iteration.py`) -/

/-- A value function `V`, a Python dict keyed by the in-bounds states;
modelled as a total function (only in-bounds states are read). -/
abbrev VMap := Coord → ℚ

/-- `V = {}; for r in range(rows): for c in range(cols): states.append((r,c))`:
the row-major state list. -/
def stateList (rows cols : Nat) : List Coord :=
  (List.range rows).flatMap (fun r => (List.range cols).map (fun c => (r, c)))

/-- `V[s] = x` (dict update). -/
def updateV (V : VMap) (s : Coord) (x : ℚ) : VMap :=
  fun q => if q = s then x else V q

/-- The initial value function: `V[state] = 0.0` for every state. -/
def V0 : VMap := fun _ => 0

/-- One state update inside a value-iteration sweep: skip the terminal
state and action-less states, otherwise replace `V[s]` by
`max_a (-1 + gamma * V[s'])` and accumulate
`delta = max(delta, abs(v - V[state]))`.  The sweep is in-place
(Gauss-Seidel): later states see the values already written by earlier
states of the same sweep. -/
def viSweepStep (m : Maze) (gamma : ℚ) (term : Coord) (acc : VMap × ℚ) (s : Coord) :
    VMap × ℚ :=
  if s = term then acc
  else
    match (possibleActions m s).map (fun an => -1 + gamma * acc.1 an.2) with
    | [] => acc
    | q0 :: qs =>
      let newv := qs.foldl max q0
      (updateV acc.1 s newv, max acc.2 |acc.1 s - newv|)

/-- One full value-iteration sweep over all states in row-major order,
returning the updated value function and the sweep's `delta`. -/
def viSweep (m : Maze) (gamma : ℚ) (V : VMap) : VMap × ℚ :=
  (stateList m.rows m.cols).foldl (viSweepStep m gamma (m.rows - 1, m.cols - 1)) (V, 0)

/-- Just the value-function component of one sweep. -/
def viSweepV (m : Maze) (gamma : ℚ) (V : VMap) : VMap := (viSweep m gamma V).1

/-- The `while True` loop of `value_iteration`: sweep until
`delta < theta`.  Returns the converged value function together with
the number of sweeps executed (the final, converging sweep included);
`none` models exhausting the fuel, i.e. the loop still running.  The
source has **no** iteration ceiling: the fuel is an artifact of the
embedding, not of the code. -/
def viLoop (m : Maze) (gamma theta : ℚ) : Nat → VMap → Option (VMap × Nat)
  | 0, _ => none
  | fuel + 1, V =>
    let Vd := viSweep m gamma V
    if Vd.2 < theta then some (Vd.1, 1)
    else
      match viLoop m gamma theta fuel Vd.1 with
      | none => none
      | some (Vf, n) => some (Vf, n + 1)

/-- The best-action fold of the policy-derivation phase: start from the
first action (Python initializes `best_value = -math.inf`, so the first
action always wins) and keep any strictly better one (`q > best_value`). -/
def argmaxAct (gamma : ℚ) (V : VMap) : List (Act × Coord) → Option Act
  | [] => none
  | (a0, n0) :: rest =>
    some ((rest.foldl (fun best an =>
      let q := -1 + gamma * V an.2
      if best.2 < q then (an.1, q) else best) (a0, -1 + gamma * V n0)).1)

/-- The greedy policy extracted from a converged value function
(`value_iteration` lines 104-121): `None` at the terminal state and at
action-less states, otherwise the first action attaining the maximal
`Q`-value. -/
def viPolicy (m : Maze) (gamma : ℚ) (V : VMap) : Coord → Option Act :=
  fun s =>
    if s = (m.rows - 1, m.cols - 1) then none
    else argmaxAct gamma V (possibleActions m s)

/-- Moving one step in direction `a` (`extract_policy_path`'s
`if action == "U": state = (r - 1, c)` etc.), over `Int` coordinates
because Python coordinates may go negative. -/
def applyAct (p : Int × Int) (a : Act) : Int × Int :=
  match a with
  | Act.U => (p.1 - 1, p.2)
  | Act.R => (p.1, p.2 + 1)
  | Act.D => (p.1 + 1, p.2)
  | Act.L => (p.1, p.2 - 1)

/-- A policy dict over in-bounds states, viewed through `.get` as a
total function on `Int` coordinates (`None` off the key set). -/
def policyZ (m : Maze) (pol : Coord → Option Act) : Int × Int → Option Act :=
  fun p =>
    if 0 ≤ p.1 ∧ 0 ≤ p.2 ∧ p.1 < (m.rows : Int) ∧ p.2 < (m.cols : Int) then
      pol (p.1.toNat, p.2.toNat)
    else none

/-- The loop of `extract_policy_path` (identical in `utils.py`,
`value_iteration.py` and `policy_iteration.py`): starting at the
current state, append states while following the policy; stop when the
terminal state is reached or the policy yields no action, then append
the terminal state.  There is **no** revisit guard in the source; the
fuel models the (possibly non-terminating) `while` loop, with `none`
meaning the loop is still running after `fuel` iterations. -/
def extractGo (term : Int × Int) (pol : Int × Int → Option Act) :
    Nat → Int × Int → List (Int × Int) → Option (List (Int × Int))
  | 0, _, _ => none
  | fuel + 1, state, path =>
    if state = term then some (path ++ [term])
    else
      match pol state with
      | none => some (path ++ [state] ++ [term])
      | some a => extractGo term pol fuel (applyAct state a) (path ++ [state])

/-- `extract_policy_path(policy, maze)`: walk from `(0,0)` towards
`(rows-1, cols-1)`. -/
def extractPolicyPath (m : Maze) (pol : Int × Int → Option Act) (fuel : Nat) :
    Option (List (Int × Int)) :=
  extractGo ((m.rows : Int) - 1, (m.cols : Int) - 1) pol fuel (0, 0) []

/-- `value_iteration(maze, win, gamma, theta)`: iterate to convergence,
derive the greedy policy, extract the path and return `len(path)`
(the function's only return value — it reports no sweep count and no
error condition).  `none` models non-termination of one of the two
embedded loops. -/
def valueIteration (m : Maze) (gamma theta : ℚ) (fuelSweeps fuelPath : Nat) : Option Nat :=
  match viLoop m gamma theta fuelSweeps V0 with
  | none => none
  | some (V, _) =>
    match extractPolicyPath m (policyZ m (viPolicy m gamma V)) fuelPath with
    | none => none
    | some path => some path.length

/-- A `1 × n` corridor maze with no branching: the boundary between
horizontally adjacent in-bounds cells is open, every other wall is
present (this is exactly the maze the generator produces for
`rows = 1`, where it never has a choice). -/
def corridor (n : Nat) : Maze :=
  { rows := 1, cols := n,
    walls := fun p =>
      { top := true, bottom := true,
        right := decide (n ≤ p.2 + 1),
        left := decide (p.2 = 0) } }

end MazeSpec

namespace MazeSpec

/-- Row-major state list of the 1×5 corridor. -/
theorem stateList_15 : stateList 1 5 = [(0,0),(0,1),(0,2),(0,3),(0,4)] := by rfl

/-- Row-major state list of the 1×2 corridor. -/
theorem stateList_12 : stateList 1 2 = [(0,0),(0,1)] := by rfl

/-- Counterexample to claim C4: on the 1×5 corridor with the default
parameters `gamma = 0.9`, `theta = 1e-4`, `value_iteration` reaches
`delta < theta` after 5 sweeps (not 4), and the final value of `(0,0)`
is `-3.439` (not `-4`). -/
theorem C4_counterexample :
    (viLoop (corridor 5) (9/10) (1/10000) 6 V0).map Prod.snd = some 5 ∧
    (viLoop (corridor 5) (9/10) (1/10000) 6 V0).map (fun VN => VN.1 (0, 0)) =
      some (-3439/1000) ∧
    (5 : Nat) ≠ 4 ∧ ((-3439/1000 : ℚ) ≠ -4) := by
  refine ⟨?_, ?_, by norm_num, by norm_num⟩ <;>
    norm_num [viLoop, viSweep, viSweepStep, stateList_15, possibleActions, corridor, updateV, V0,
      -Prod.mk_zero_zero, Prod.mk.injEq, abs_eq_max_neg]

/-- Claim C4 (corrected): on the 1×5 corridor with the default
parameters `gamma = 0.9`, `theta = 1e-4`, the `while True` loop of
`value_iteration` terminates, passing the convergence test
`delta < theta` on its 5th sweep (4 sweeps change values, the 5th
confirms `delta = 0`), with final discounted values
`V((0,4)) = 0`, `V((0,3)) = -1`, `V((0,2)) = -1.9`,
`V((0,1)) = -2.71`, `V((0,0)) = -3.439` (geometric in `gamma`, not the
arithmetic `0, -1, -2, -3, -4` of the claim). -/
theorem C4_corridor_value_iteration :
    (viLoop (corridor 5) (9/10) (1/10000) 6 V0).map Prod.snd = some 5 ∧
    (viLoop (corridor 5) (9/10) (1/10000) 6 V0).map
        (fun VN => (VN.1 (0, 0), VN.1 (0, 1), VN.1 (0, 2), VN.1 (0, 3), VN.1 (0, 4))) =
      some (-3439/1000, -271/100, -19/10, -1, 0) := by
  constructor <;>
    norm_num [viLoop, viSweep, viSweepStep, stateList_15, possibleActions, corridor, updateV, V0,
      -Prod.mk_zero_zero, Prod.mk.injEq, abs_eq_max_neg]

/-- The max-fold over `Q`-values is monotone in the value function and
the seed. -/
theorem qfold_mono (gamma : ℚ) (hγ : 0 ≤ gamma) (V W : VMap) (h : ∀ p, V p ≤ W p)
    (l : List (Act × Coord)) :
    ∀ a b : ℚ, a ≤ b →
      (l.map (fun an => -1 + gamma * V an.2)).foldl max a ≤
        (l.map (fun an => -1 + gamma * W an.2)).foldl max b := by
  induction l with
  | nil => intro a b hab; exact hab
  | cons x xs ih =>
    intro a b hab
    simp only [List.map_cons, List.foldl_cons]
    refine ih _ _ (max_le_max hab ?_)
    have := mul_le_mul_of_nonneg_left (h x.2) hγ
    linarith

/-- The max-fold over `Q`-values of a non-positive value function is
non-positive when the seed is. -/
theorem qfold_nonpos (gamma : ℚ) (hγ : 0 ≤ gamma) (V : VMap) (h : ∀ p, V p ≤ 0)
    (l : List (Act × Coord)) :
    ∀ a : ℚ, a ≤ 0 → (l.map (fun an => -1 + gamma * V an.2)).foldl max a ≤ 0 := by
  induction l with
  | nil => intro a ha; exact ha
  | cons x xs ih =>
    intro a ha
    simp only [List.map_cons, List.foldl_cons]
    refine ih _ (max_le ha ?_)
    have h1 := mul_le_mul_of_nonneg_left (h x.2) hγ
    have h2 : gamma * (0:ℚ) = 0 := mul_zero gamma
    linarith

/-- One sweep-step is pointwise monotone in the value function. -/
theorem viSweepStep_mono (m : Maze) (gamma : ℚ) (term : Coord) (hγ : 0 ≤ gamma)
    (s : Coord) (V W : VMap) (d e : ℚ) (h : ∀ p, V p ≤ W p) :
    ∀ p, (viSweepStep m gamma term (V, d) s).1 p ≤ (viSweepStep m gamma term (W, e) s).1 p := by
  intro p
  unfold viSweepStep
  by_cases hterm : s = term
  · simp [hterm]; exact h p
  · simp only [hterm, if_false]
    cases hpa : possibleActions m s with
    | nil => simpa [hpa] using h p
    | cons x xs =>
      simp only [hpa, List.map_cons]
      simp only [updateV]
      by_cases hps : p = s
      · simp only [hps, if_pos rfl]
        refine qfold_mono gamma hγ V W h xs _ _ ?_
        have := mul_le_mul_of_nonneg_left (h x.2) hγ
        linarith
      · simp only [if_neg hps]
        exact h p

/-- One sweep-step keeps the value function non-positive. -/
theorem viSweepStep_nonpos (m : Maze) (gamma : ℚ) (term : Coord) (hγ : 0 ≤ gamma)
    (s : Coord) (V : VMap) (d : ℚ) (h : ∀ p, V p ≤ 0) :
    ∀ p, (viSweepStep m gamma term (V, d) s).1 p ≤ 0 := by
  intro p
  unfold viSweepStep
  by_cases hterm : s = term
  · simp [hterm]; exact h p
  · simp only [hterm, if_false]
    cases hpa : possibleActions m s with
    | nil => simpa [hpa] using h p
    | cons x xs =>
      simp only [hpa, List.map_cons]
      simp only [updateV]
      by_cases hps : p = s
      · simp only [hps, if_pos rfl]
        refine qfold_nonpos gamma hγ V h xs _ ?_
        have := mul_le_mul_of_nonneg_left (h x.2) hγ
        linarith
      · simp only [if_neg hps]
        exact h p

/-- A sweep-fold over any state list is pointwise monotone in the value
function. -/
theorem viSweepFold_mono (m : Maze) (gamma : ℚ) (term : Coord) (hγ : 0 ≤ gamma)
    (l : List Coord) :
    ∀ (V W : VMap) (d e : ℚ), (∀ p, V p ≤ W p) →
      ∀ p, (l.foldl (viSweepStep m gamma term) (V, d)).1 p ≤
        (l.foldl (viSweepStep m gamma term) (W, e)).1 p := by
  induction l with
  | nil => intro V W d e h p; exact h p
  | cons s l ih =>
    intro V W d e h p
    simp only [List.foldl_cons]
    have hstep := viSweepStep_mono m gamma term hγ s V W d e h
    cases h1 : viSweepStep m gamma term (V, d) s with
    | mk V' d' =>
      cases h2 : viSweepStep m gamma term (W, e) s with
      | mk W' e' =>
        refine ih V' W' d' e' ?_ p
        intro q
        have := hstep q
        rw [h1, h2] at this
        exact this

/-- A sweep-fold keeps the value function non-positive. -/
theorem viSweepFold_nonpos (m : Maze) (gamma : ℚ) (term : Coord) (hγ : 0 ≤ gamma)
    (l : List Coord) :
    ∀ (V : VMap) (d : ℚ), (∀ p, V p ≤ 0) →
      ∀ p, (l.foldl (viSweepStep m gamma term) (V, d)).1 p ≤ 0 := by
  induction l with
  | nil => intro V d h p; exact h p
  | cons s l ih =>
    intro V d h p
    simp only [List.foldl_cons]
    have hstep := viSweepStep_nonpos m gamma term hγ s V d h
    cases h1 : viSweepStep m gamma term (V, d) s with
    | mk V' d' =>
      refine ih V' d' ?_ p
      intro q
      have := hstep q
      rw [h1] at this
      exact this

theorem viSweepV_mono (m : Maze) (gamma : ℚ) (hγ : 0 ≤ gamma) (V W : VMap)
    (h : ∀ p, V p ≤ W p) : ∀ p, viSweepV m gamma V p ≤ viSweepV m gamma W p :=
  viSweepFold_mono m gamma _ hγ _ V W 0 0 h

theorem viSweepV_nonpos (m : Maze) (gamma : ℚ) (hγ : 0 ≤ gamma) (V : VMap)
    (h : ∀ p, V p ≤ 0) : ∀ p, viSweepV m gamma V p ≤ 0 :=
  viSweepFold_nonpos m gamma _ hγ _ V 0 h

/-- Counterexample to claim C5: the value function is **not**
non-decreasing from one sweep to the next.  Already on a 1×2 corridor,
`V((0,0))` drops from `0` to `-1` during the very first sweep. -/
theorem C5_counterexample :
    (viSweepV (corridor 2) (9/10))^[1] V0 (0, 0) = -1 ∧
    (viSweepV (corridor 2) (9/10))^[0] V0 (0, 0) = 0 ∧
    ¬((viSweepV (corridor 2) (9/10))^[0] V0 (0, 0) ≤
        (viSweepV (corridor 2) (9/10))^[1] V0 (0, 0)) := by
  refine ⟨?_, rfl, ?_⟩ <;>
    norm_num [viSweepV, viSweep, viSweepStep, stateList_12, possibleActions, corridor, updateV, V0,
      -Prod.mk_zero_zero, Prod.mk.injEq, abs_eq_max_neg]

/-- Claim C5 (corrected): during `value_iteration` on any maze with any
non-negative discount factor (in particular the default `gamma = 0.9`),
the value function is monotonically non-increasing from one sweep to
the next, and bounded above by `0` at every sweep. -/
theorem C5_value_monotone (m : Maze) (gamma : ℚ) (hγ : 0 ≤ gamma) (k : Nat) (s : Coord) :
    (viSweepV m gamma)^[k + 1] V0 s ≤ (viSweepV m gamma)^[k] V0 s ∧
    (viSweepV m gamma)^[k] V0 s ≤ 0 := by
  have hbound : ∀ n : Nat, ∀ p, (viSweepV m gamma)^[n] V0 p ≤ 0 := by
    intro n
    induction n with
    | zero => intro p; exact le_refl 0
    | succ n ih =>
      intro p
      rw [Function.iterate_succ_apply']
      exact viSweepV_nonpos m gamma hγ _ ih p
  have hchain : ∀ n : Nat, ∀ p,
      (viSweepV m gamma)^[n + 1] V0 p ≤ (viSweepV m gamma)^[n] V0 p := by
    intro n
    induction n with
    | zero =>
      intro p
      have := viSweepV_nonpos m gamma hγ V0 (fun _ => le_refl 0) p
      simpa using this
    | succ n ih =>
      intro p
      have ih' : ∀ q, viSweepV m gamma ((viSweepV m gamma)^[n] V0) q ≤
          (viSweepV m gamma)^[n] V0 q := by
        intro q
        rw [← Function.iterate_succ_apply' (viSweepV m gamma) n V0]
        exact ih q
      rw [Function.iterate_succ_apply', Function.iterate_succ_apply']
      exact viSweepV_mono m gamma hγ _ _ ih' p
  exact ⟨hchain k s, hbound k s⟩

/-- Witness for the corrected C5 at a concrete instance: the 1×2
corridor with the default `gamma`, comparing sweeps 1 and 2 at state
`(0,0)`. -/
theorem C5_value_monotone_witness :
    (0 ≤ (9/10 : ℚ)) ∧
    ((viSweepV (corridor 2) (9/10))^[2] V0 (0, 0) ≤
        (viSweepV (corridor 2) (9/10))^[1] V0 (0, 0) ∧
      (viSweepV (corridor 2) (9/10))^[1] V0 (0, 0) ≤ 0) :=
  ⟨by norm_num, C5_value_monotone (corridor 2) (9/10) (by norm_num) 1 (0, 0)⟩

end MazeSpec

namespace MazeSpec

/-! ## The graph-search solvers (`dfs.py`, `bfs.py`, `astar.py`) -/

/-- Pointwise update of a predecessor dict (`came_from[k] = v`). -/
def updateCF (f : Coord → Option Coord) (k : Coord) (v : Option Coord) :
    Coord → Option Coord :=
  fun q => if q = k then v else f q

/-- The loop of `reconstruct_path(came_from, start, end)`: walk the
predecessor dict backwards from `end` until a `None` is hit (a missing
key and a stored `None` both read back as `None` through `.get`).
Accumulating with `cons` realizes the final `path.reverse()`.  `none`
models the walk still running after `fuel` steps. -/
def reconstructGo (cameFrom : Coord → Option Coord) :
    Nat → Option Coord → List Coord → Option (List Coord)
  | 0, _, _ => none
  | _ + 1, none, acc => some acc
  | fuel + 1, some c, acc => reconstructGo cameFrom fuel (cameFrom c) (c :: acc)

/-- `reconstruct_path(came_from, start, end)` (the `start` parameter is
unused in the source as well). -/
def reconstructPath (cameFrom : Coord → Option Coord) (start endC : Coord)
    (fuel : Nat) : Option (List Coord) :=
  reconstructGo cameFrom fuel (some endC) []

/-- The mutable state of `solve_bfs`: FIFO queue (head = front),
predecessor dict, visited set, the two counters, and a flag recording
that the `break` on popping the goal has fired. -/
structure BfsState where
  queue : List Coord
  cameFrom : Coord → Option Coord
  visited : Finset Coord
  nodesExpanded : Nat
  maxFrontier : Nat
  found : Bool

/-- `queue = deque([start]); came_from = {start: None}; visited = {start};
nodes_expanded = 0; max_frontier_size = len(queue)`. -/
def bfsInit (start : Coord) : BfsState :=
  { queue := [start], cameFrom := fun _ => none, visited := {start},
    nodesExpanded := 0, maxFrontier := 1, found := false }

/-- The neighbour loop of `solve_bfs`: push every not-yet-visited
neighbour (marking it visited and recording its predecessor), updating
`max_frontier_size` after each push. -/
def bfsExpand (m : Maze) (cur : Coord) (s : BfsState) : BfsState :=
  (neighborsCoord cur m).foldl (fun st n =>
    if n ∈ st.visited then st
    else
      { st with
        visited := insert n st.visited,
        cameFrom := updateCF st.cameFrom n (some cur),
        queue := st.queue ++ [n],
        maxFrontier := max st.maxFrontier (st.queue.length + 1) }) s

/-- One iteration of the `while queue` loop of `solve_bfs`: pop the
front, count the expansion, sample the frontier size, break on the
goal, otherwise push the unvisited neighbours. -/
def bfsStep (m : Maze) (endC : Coord) (s : BfsState) : BfsState :=
  match s.queue with
  | [] => s
  | cur :: rest =>
    let s1 := { s with
      queue := rest,
      nodesExpanded := s.nodesExpanded + 1,
      maxFrontier := max s.maxFrontier rest.length }
    if cur = endC then { s1 with found := true }
    else bfsExpand m cur s1

/-- The `while queue` loop of `solve_bfs` (it stops when the queue is
empty or the goal was popped). -/
def bfsLoop (m : Maze) (endC : Coord) : Nat → BfsState → BfsState
  | 0, s => s
  | fuel + 1, s =>
    if s.queue = [] ∨ s.found = true then s
    else bfsLoop m endC fuel (bfsStep m endC s)

/-- `solve_bfs(maze, win)`: run BFS from `(0,0)` to
`(rows-1, cols-1)`, then unconditionally reconstruct a path from the
predecessor dict and return it with the two counters (the source
returns `(len(path), nodes_expanded, max_frontier_size)`; we also keep
the path itself).  `some` means both loops finished within the given
fuel, i.e. this is the value the Python code returns. -/
def solveBfs (m : Maze) (fuel fuelPath : Nat) : Option (List Coord × Nat × Nat) :=
  let start : Coord := (0, 0)
  let endC : Coord := (m.rows - 1, m.cols - 1)
  let s := bfsLoop m endC fuel (bfsInit start)
  if s.queue = [] ∨ s.found = true then
    (reconstructPath s.cameFrom start endC fuelPath).map
      (fun path => (path, s.nodesExpanded, s.maxFrontier))
  else none

/-- The mutable state of `solve_dfs` (LIFO stack, head = top). -/
structure DfsState where
  stack : List Coord
  cameFrom : Coord → Option Coord
  visited : Finset Coord
  nodesExpanded : Nat
  maxFrontier : Nat
  found : Bool

/-- `stack = [start]; came_from = {start: None}; visited = set();
nodes_expanded = 0; max_frontier_size = len(stack)`. -/
def dfsInit (start : Coord) : DfsState :=
  { stack := [start], cameFrom := fun _ => none, visited := ∅,
    nodesExpanded := 0, maxFrontier := 1, found := false }

/-- The neighbour loop of `solve_dfs`: push a neighbour only if it is
neither visited nor already on the stack. -/
def dfsExpand (m : Maze) (cur : Coord) (s : DfsState) : DfsState :=
  (neighborsCoord cur m).foldl (fun st n =>
    if n ∈ st.visited ∨ n ∈ st.stack then st
    else
      { st with
        cameFrom := updateCF st.cameFrom n (some cur),
        stack := n :: st.stack,
        maxFrontier := max st.maxFrontier (st.stack.length + 1) }) s

/-- One iteration of the `while stack` loop of `solve_dfs`. -/
def dfsStep (m : Maze) (endC : Coord) (s : DfsState) : DfsState :=
  match s.stack with
  | [] => s
  | cur :: rest =>
    let s1 := { s with
      stack := rest,
      nodesExpanded := s.nodesExpanded + 1,
      maxFrontier := max s.maxFrontier rest.length,
      visited := insert cur s.visited }
    if cur = endC then { s1 with found := true }
    else dfsExpand m cur s1

/-- The `while stack` loop of `solve_dfs`. -/
def dfsLoop (m : Maze) (endC : Coord) : Nat → DfsState → DfsState
  | 0, s => s
  | fuel + 1, s =>
    if s.stack = [] ∨ s.found = true then s
    else dfsLoop m endC fuel (dfsStep m endC s)

/-- `solve_dfs(maze, win)`. -/
def solveDfs (m : Maze) (fuel fuelPath : Nat) : Option (List Coord × Nat × Nat) :=
  let start : Coord := (0, 0)
  let endC : Coord := (m.rows - 1, m.cols - 1)
  let s := dfsLoop m endC fuel (dfsInit start)
  if s.stack = [] ∨ s.found = true then
    (reconstructPath s.cameFrom start endC fuelPath).map
      (fun path => (path, s.nodesExpanded, s.maxFrontier))
  else none

/-- `heuristic(a, b)`: Manhattan distance (Python computes it on ints,
so we take absolute differences over `Int`). -/
def heuristic (a b : Coord) : Nat :=
  ((a.1 : Int) - (b.1 : Int)).natAbs + ((a.2 : Int) - (b.2 : Int)).natAbs

/-- An entry of the `PriorityQueue`: an `(f_score, (row, col))` tuple;
`f_score` is `∞`-capable (`float('inf')` in the source). -/
abbrev PqEntry := WithTop Nat × Coord

/-- Python tuple comparison on `(f, (r, c))`: by `f`, then row, then
column — this is the order `PriorityQueue`/`heapq` pops by. -/
def pqLt (e1 e2 : PqEntry) : Prop :=
  e1.1 < e2.1 ∨ (e1.1 = e2.1 ∧
    (e1.2.1 < e2.2.1 ∨ (e1.2.1 = e2.2.1 ∧ e1.2.2 < e2.2.2)))

instance (e1 e2 : PqEntry) : Decidable (pqLt e1 e2) := by
  unfold pqLt; infer_instance

/-- The smallest entry of a non-empty priority queue (`open_set.get()`
pops the tuple-minimum). -/
def pqMin (x : PqEntry) (l : List PqEntry) : PqEntry :=
  l.foldl (fun a b => if pqLt b a then b else a) x

/-- The mutable state of `solve_astar`. -/
structure AstarState where
  openList : List PqEntry
  openHash : Finset Coord
  cameFrom : Coord → Option Coord
  gScore : Coord → WithTop Nat
  fScore : Coord → WithTop Nat
  visited : Finset Coord
  nodesExpanded : Nat
  maxFrontier : Nat
  found : Bool

/-- `open_set = PriorityQueue(); open_set.put((0, start)); came_from = {};
g_score = inf everywhere except g_score[start] = 0; f_score = inf
everywhere except f_score[start] = h(start, end);
open_set_hash = {start}; visited = set()`. -/
def astarInit (start endC : Coord) : AstarState :=
  { openList := [((0 : WithTop Nat), start)],
    openHash := {start},
    cameFrom := fun _ => none,
    gScore := fun p => if p = start then 0 else ⊤,
    fScore := fun p => if p = start then (heuristic start endC : WithTop Nat) else ⊤,
    visited := ∅,
    nodesExpanded := 0,
    maxFrontier := 1,
    found := false }

/-- The neighbour loop of `solve_astar`: relax each neighbour
(`tentative_g = g_score[current] + 1`), and on a strict improvement
update the predecessor and the scores, inserting into the frontier if
absent. -/
def astarExpand (m : Maze) (endC cur : Coord) (s : AstarState) : AstarState :=
  (neighborsCoord cur m).foldl (fun st n =>
    let tg := st.gScore cur + 1
    if tg < st.gScore n then
      let st1 := { st with
        cameFrom := updateCF st.cameFrom n (some cur),
        gScore := fun p => if p = n then tg else st.gScore p,
        fScore := fun p => if p = n then tg + (heuristic n endC : WithTop Nat)
          else st.fScore p }
      if n ∉ st1.openHash then
        { st1 with
          openList := st1.openList ++ [(st1.fScore n, n)],
          openHash := insert n st1.openHash,
          maxFrontier := max st1.maxFrontier (insert n st1.openHash).card }
      else st1
    else st) s

/-- One iteration of the `while not open_set.empty()` loop of
`solve_astar`: pop the tuple-minimal entry, remove it from the hash,
count and sample, break on the goal, otherwise relax the neighbours. -/
def astarStep (m : Maze) (endC : Coord) (s : AstarState) : AstarState :=
  match s.openList with
  | [] => s
  | x :: xs =>
    let e := pqMin x xs
    let cur := e.2
    let s1 := { s with
      openList := (x :: xs).erase e,
      openHash := s.openHash.erase cur,
      nodesExpanded := s.nodesExpanded + 1,
      maxFrontier := max s.maxFrontier (s.openHash.erase cur).card,
      visited := insert cur s.visited }
    if cur = endC then { s1 with found := true }
    else astarExpand m endC cur s1

/-- The `while not open_set.empty()` loop of `solve_astar`. -/
def astarLoop (m : Maze) (endC : Coord) : Nat → AstarState → AstarState
  | 0, s => s
  | fuel + 1, s =>
    if s.openList = [] ∨ s.found = true then s
    else astarLoop m endC fuel (astarStep m endC s)

/-- `solve_astar(maze, win)`. -/
def solveAstar (m : Maze) (fuel fuelPath : Nat) : Option (List Coord × Nat × Nat) :=
  let start : Coord := (0, 0)
  let endC : Coord := (m.rows - 1, m.cols - 1)
  let s := astarLoop m endC fuel (astarInit start endC)
  if s.openList = [] ∨ s.found = true then
    (reconstructPath s.cameFrom start endC fuelPath).map
      (fun path => (path, s.nodesExpanded, s.maxFrontier))
  else none

end MazeSpec

namespace MazeSpec

/-! ## Policy iteration (`policy_iteration.py`) -/

/-- The `for (act, ns) in actions: if act == a: next_state = ns` scan of
`policy_evaluation`; `a = None` matches nothing. -/
def findNext (l : List (Act × Coord)) (a : Option Act) : Option Coord :=
  match l.find? (fun an => some an.1 = a) with
  | none => none
  | some an => some an.2

/-- One state update inside a policy-evaluation sweep: skip the
terminal state and states whose policy action resolves to no successor,
otherwise `V[s] = -1 + gamma * V[next]` with the usual in-place `delta`
accumulation. -/
def piEvalStep (m : Maze) (gamma : ℚ) (term : Coord) (pol : Coord → Option Act)
    (acc : VMap × ℚ) (s : Coord) : VMap × ℚ :=
  if s = term then acc
  else
    match findNext (possibleActions m s) (pol s) with
    | none => acc
    | some ns =>
      let newv := -1 + gamma * acc.1 ns
      (updateV acc.1 s newv, max acc.2 |acc.1 s - newv|)

/-- One full policy-evaluation sweep. -/
def piEvalSweep (m : Maze) (gamma : ℚ) (pol : Coord → Option Act) (V : VMap) :
    VMap × ℚ :=
  (stateList m.rows m.cols).foldl
    (piEvalStep m gamma (m.rows - 1, m.cols - 1) pol) (V, 0)

/-- The inner `while True` loop of `policy_evaluation`: sweep until
`delta < theta`.  Like `value_iteration`, the source has **no**
iteration ceiling; `none` models the loop still running after `fuel`
sweeps. -/
def piEvalLoop (m : Maze) (gamma theta : ℚ) (pol : Coord → Option Act) :
    Nat → VMap → Option VMap
  | 0, _ => none
  | fuel + 1, V =>
    let Vd := piEvalSweep m gamma pol V
    if Vd.2 < theta then some Vd.1
    else piEvalLoop m gamma theta pol fuel Vd.1

/-- The initial policy of `policy_iteration`: `None` at the terminal
state, otherwise the first legal action (or `None` if there is none). -/
def piInitPolicy (m : Maze) : Coord → Option Act :=
  fun s =>
    if s = (m.rows - 1, m.cols - 1) then none
    else
      match possibleActions m s with
      | [] => none
      | an :: _ => some an.1

/-- One policy-improvement pass: for every non-terminal state with
actions, pick the greedy action; record instability whenever it differs
from the current policy action. -/
def piImprove (m : Maze) (gamma : ℚ) (V : VMap) (pol : Coord → Option Act) :
    (Coord → Option Act) × Bool :=
  (stateList m.rows m.cols).foldl (fun (acc : (Coord → Option Act) × Bool) s =>
    if s = (m.rows - 1, m.cols - 1) then acc
    else
      match possibleActions m s with
      | [] => acc
      | an :: rest =>
        let best := argmaxAct gamma V (an :: rest)
        if best ≠ acc.1 s then
          (fun q => if q = s then best else acc.1 q, false)
        else acc) (pol, true)

/-- The outer `while not stable` loop of `policy_iteration`: evaluate
the current policy, then improve it; stop when a full improvement pass
changes nothing.  `none` models non-termination of either loop within
the given fuel. -/
def piLoop (m : Maze) (gamma theta : ℚ) (fuelEval : Nat) :
    Nat → (Coord → Option Act) → VMap → Option ((Coord → Option Act) × VMap)
  | 0, _, _ => none
  | fuel + 1, pol, V =>
    match piEvalLoop m gamma theta pol fuelEval V with
    | none => none
    | some V' =>
      let ps := piImprove m gamma V' pol
      if ps.2 = true then some (ps.1, V')
      else piLoop m gamma theta fuelEval fuel ps.1 V'

/-- `policy_iteration(maze, win, gamma, theta)`: alternate evaluation
and improvement to stability, then extract the policy path and return
`len(path)` (again the only return value — no counters, no error
condition). -/
def policyIteration (m : Maze) (gamma theta : ℚ)
    (fuelEval fuelOuter fuelPath : Nat) : Option Nat :=
  match piLoop m gamma theta fuelEval fuelOuter (piInitPolicy m) V0 with
  | none => none
  | some pv =>
    match extractPolicyPath m (policyZ m pv.1) fuelPath with
    | none => none
    | some path => some path.length

end MazeSpec

namespace MazeSpec

/-- Row-major state list of the 1×6 corridor. -/
theorem stateList_16 :
    stateList 1 6 = [(0,0),(0,1),(0,2),(0,3),(0,4),(0,5)] := by rfl

/-- Row-major state list of the 1×1 maze. -/
theorem stateList_11 : stateList 1 1 = [(0,0)] := by rfl

set_option maxHeartbeats 1600000 in
/-- Claim C3 (refuted by the code): neither solver has a sweep ceiling
or a non-convergence signal.  Both convergence loops are `while True:
... if delta < theta: break`.  Concretely, on a 1×6 corridor with the
default `gamma = 0.9`, `theta = 1e-4`: after 4 sweeps the threshold is
still unmet in both `value_iteration` and `policy_evaluation` (the
loops are still running — a safety ceiling of 4 would be exceeded), and
the code then simply keeps sweeping and returns an ordinary result
(converging after 6 sweeps), with no non-convergence condition anywhere
in its return values. -/
theorem C3_no_sweep_ceiling :
    viLoop (corridor 6) (9/10) (1/10000) 4 V0 = none ∧
    (viLoop (corridor 6) (9/10) (1/10000) 8 V0).map Prod.snd = some 6 ∧
    piEvalLoop (corridor 6) (9/10) (1/10000) (piInitPolicy (corridor 6)) 4 V0 = none ∧
    (piEvalLoop (corridor 6) (9/10) (1/10000) (piInitPolicy (corridor 6)) 8 V0).isSome =
      true := by
  refine ⟨?_, ?_, ?_, ?_⟩ <;>
    norm_num [viLoop, viSweep, viSweepStep, piEvalLoop, piEvalSweep, piEvalStep,
      piInitPolicy, findNext, argmaxAct, stateList_16, possibleActions, corridor, updateV, V0,
      -Prod.mk_zero_zero, Prod.mk.injEq, abs_eq_max_neg]

/-- Counterexample to claim C6: on the 1×1 maze the reported
nodes-expanded counter of the search solvers is `1`, not `0` (the
single pop of `start = end` is counted before the goal test), and the
max-frontier counter is `1` as well. -/
theorem C6_counterexample :
    (solveBfs (Maze.init 1 1) 5 5).map (fun r => r.2.1) = some 1 ∧
    (solveDfs (Maze.init 1 1) 5 5).map (fun r => r.2.1) = some 1 ∧
    (solveAstar (Maze.init 1 1) 5 5).map (fun r => r.2.1) = some 1 ∧
    (1 : Nat) ≠ 0 :=
  ⟨by decide, by decide, by decide, by decide⟩

/-- Claim C6 (corrected): on a 1×1 maze (start = terminal = `(0,0)`,
which is exactly `Maze(1,1,·)` since generation carves nothing), every
solver returns a path of length exactly 1; the search solvers report
`nodes_expanded = 1` and `max_frontier_size = 1` (not 0), and the MDP
solvers return only the path length 1 (they expose no sweep counter;
the driver logs `0` for their counters). -/
theorem C6_one_by_one_maze :
    solveDfs (Maze.init 1 1) 5 5 = some ([(0, 0)], 1, 1) ∧
    solveBfs (Maze.init 1 1) 5 5 = some ([(0, 0)], 1, 1) ∧
    solveAstar (Maze.init 1 1) 5 5 = some ([(0, 0)], 1, 1) ∧
    valueIteration (Maze.init 1 1) (9/10) (1/10000) 5 5 = some 1 ∧
    policyIteration (Maze.init 1 1) (9/10) (1/10000) 5 5 5 = some 1 := by
  refine ⟨by decide, by decide, by decide, ?_, ?_⟩ <;>
    norm_num [valueIteration, policyIteration, viLoop, viSweep, viSweepStep, piLoop,
      piEvalLoop, piEvalSweep, piEvalStep, piImprove, piInitPolicy, findNext,
      stateList_11, possibleActions, Maze.init, Cell.init, updateV, V0, viPolicy, argmaxAct,
      policyZ, extractPolicyPath, extractGo, applyAct,
      -Prod.mk_zero_zero, Prod.mk.injEq, abs_eq_max_neg]

/-- Claim C7 (refuted by the code): when the goal is unreachable and the
frontier empties, the solvers do **not** report a distinguishable
"no path found" condition.  On a 1×2 maze with all walls intact
(`(0,1)` unreachable from `(0,0)`, which indeed has no neighbours),
`solve_bfs` and `solve_dfs` fall through to `reconstruct_path` and
return the ordinary success-shaped tuple `(1, 1, 1)` whose "path"
`[(0,1)]` does not even contain the start cell. -/
theorem C7_no_path_not_signalled :
    solveBfs (Maze.init 1 2) 5 5 = some ([(0, 1)], 1, 1) ∧
    solveDfs (Maze.init 1 2) 5 5 = some ([(0, 1)], 1, 1) ∧
    neighborsCoord (0, 0) (Maze.init 1 2) = [] ∧
    ((0, 0) : Coord) ∉ [((0 : Nat), (1 : Nat))] :=
  ⟨by decide, by decide, by decide, by decide⟩

/-- A policy whose two moves form a cycle: `R` at `(0,0)`, `L` at
`(0,1)` (both legal moves of the 1×3 corridor). -/
def polCyc : Int × Int → Option Act :=
  fun p => if p = (0, 0) then some Act.R else if p = (0, 1) then some Act.L else none

theorem extractGo_polCyc_none :
    ∀ fuel (path : List (Int × Int)) (state : Int × Int),
      state = (0, 0) ∨ state = (0, 1) →
      extractGo (0, 2) polCyc fuel state path = none := by
  intro fuel
  induction fuel with
  | zero => intro path state h; rfl
  | succ n ih =>
    intro path state h
    rcases h with rfl | rfl
    · show extractGo (0, 2) polCyc (n + 1) (0, 0) path = none
      unfold extractGo
      norm_num [polCyc, applyAct]
      exact ih _ _ (Or.inr (by norm_num))
    · show extractGo (0, 2) polCyc (n + 1) (0, 1) path = none
      unfold extractGo
      norm_num [polCyc, applyAct]
      exact ih _ _ (Or.inl (by norm_num))

/-- Claim C8 (refuted by the code): `extract_policy_path` has **no**
revisit guard — its `while` loop only stops on the terminal state or a
missing action.  Under the cyclic (but move-legal) policy `polCyc` on
the 1×3 corridor the walk alternates `(0,0) → (0,1) → (0,0) → …`
forever: for every number of loop iterations the extraction has not
terminated. -/
theorem C8_extract_policy_path_diverges :
    (∀ fuel, extractPolicyPath (corridor 3) polCyc fuel = none) ∧
    (Act.R, ((0 : Nat), (1 : Nat))) ∈ possibleActions (corridor 3) (0, 0) ∧
    (Act.L, ((0 : Nat), (0 : Nat))) ∈ possibleActions (corridor 3) (0, 1) := by
  refine ⟨?_, by decide, by decide⟩
  intro fuel
  have h : ((((corridor 3).rows : Int) - 1, ((corridor 3).cols : Int) - 1) :
      Int × Int) = ((0 : Int), (2 : Int)) := by decide
  unfold extractPolicyPath
  rw [h]
  exact extractGo_polCyc_none fuel [] (0, 0) (Or.inl rfl)

end MazeSpec

namespace MazeSpec

/-! ## The maze generator (`Maze.generate_maze`) -/

/-- `get_unvisited_neighbors(cell)`: the in-bounds neighbours (via
`Maze.index`, in the order top, right, bottom, left) that are not yet
visited. -/
def unvisitedNeighbors (m : Maze) (visited : Finset Coord) (p : Coord) : List Coord :=
  (([m.index ((p.1 : Int) - 1) (p.2 : Int),
     m.index (p.1 : Int) ((p.2 : Int) + 1),
     m.index ((p.1 : Int) + 1) (p.2 : Int),
     m.index (p.1 : Int) ((p.2 : Int) - 1)].filterMap id).filter
    (fun q => q ∉ visited))

/-- The mutable state of `generate_maze`: the maze grid being carved,
the set of cells with `visited = True`, and the backtracking stack
(head = top of stack). -/
structure GenState where
  maze : Maze
  visited : Finset Coord
  stack : List Coord

/-- One iteration of the `while self.stack` loop: inspect the top of
the stack; if it has unvisited neighbours, choose one (the random
choice is injected as an index `rng`, reduced mod the list length the
way `random.choice` picks uniformly), carve through the shared wall,
mark it visited and push it; otherwise pop. -/
def genStep (rng : Nat) (s : GenState) : GenState :=
  match s.stack with
  | [] => s
  | current :: rest =>
    let nbrs := unvisitedNeighbors s.maze s.visited current
    if h : nbrs = [] then { s with stack := rest }
    else
      let nxt := nbrs.get ⟨rng % nbrs.length, Nat.mod_lt _ (List.length_pos.mpr h)⟩
      { maze := removeWalls s.maze current nxt,
        visited := insert nxt s.visited,
        stack := nxt :: s.stack }

/-- The `while self.stack` loop, with the step counter `t` feeding the
injected random stream. -/
def genLoop (rng : Nat → Nat) : Nat → Nat → GenState → GenState
  | 0, _, s => s
  | fuel + 1, t, s =>
    if s.stack = [] then s else genLoop rng fuel (t + 1) (genStep (rng t) s)

/-- The initial generator state: `(0,0)` visited and pushed. -/
def genInit (rows cols : Nat) : GenState :=
  { maze := Maze.init rows cols, visited := {(0, 0)}, stack := [(0, 0)] }

/-- `Maze.generate_maze(win)`: run the carving loop to completion
(`2*rows*cols` fuel provably suffices) and return the carved grid (the
final reset of the per-cell visited flags does not touch walls). -/
def generateMaze (rows cols : Nat) (rng : Nat → Nat) : Maze :=
  (genLoop rng (2 * rows * cols) 0 (genInit rows cols)).maze

/-- The open-boundary relation between two cells, as computed by the
solvers: each of the two cells lists the other among its open-wall
neighbours.  (On the symmetric mazes the generator produces, either
inclusion implies the other.) -/
def openAdj (m : Maze) (a b : Coord) : Prop :=
  b ∈ neighborsCoord a m ∧ a ∈ neighborsCoord b m

/-- A listed neighbour is never the cell itself. -/
theorem mem_neighborsCoord_ne (m : Maze) (p q : Coord)
    (h : q ∈ neighborsCoord p m) : q ≠ p := by
  rw [mem_neighborsCoord] at h
  rcases h with ⟨_, h2, rfl⟩ | ⟨_, _, rfl⟩ | ⟨_, _, rfl⟩ | ⟨_, h2, rfl⟩ <;>
    intro hcontra <;> rw [Prod.mk.injEq] at hcontra <;> omega

/-- The open-boundary graph of a maze on the `rows × cols` vertex grid
(`rows`, `cols` given explicitly so the vertex type does not depend on
computed fields). -/
def mazeGraph (rows cols : Nat) (m : Maze) : SimpleGraph (Fin rows × Fin cols) where
  Adj x y := openAdj m (x.1.1, x.2.1) (y.1.1, y.2.1)
  symm := fun x y h => ⟨h.2, h.1⟩
  loopless := fun x h => mem_neighborsCoord_ne m _ _ h.1 rfl

instance (rows cols : Nat) (m : Maze) : DecidableRel (mazeGraph rows cols m).Adj := by
  intro x y
  unfold mazeGraph openAdj
  infer_instance

/-- The in-bounds cells as a finite set. -/
def boundsFinset (m : Maze) : Finset Coord :=
  Finset.range m.rows ×ˢ Finset.range m.cols

theorem mem_boundsFinset (m : Maze) (p : Coord) :
    p ∈ boundsFinset m ↔ p.1 < m.rows ∧ p.2 < m.cols := by
  unfold boundsFinset
  rw [Finset.mem_product, Finset.mem_range, Finset.mem_range]

/-- The canonical open boundary pairs: each geometric boundary is
counted once, at its top/left cell (`true` = the boundary to the right
neighbour, `false` = the boundary to the bottom neighbour). -/
def canonicalEdges (m : Maze) : Finset (Coord × Bool) :=
  (boundsFinset m ×ˢ (Finset.univ : Finset Bool)).filter fun pd =>
    if pd.2 then pd.1.2 + 1 < m.cols ∧ (m.walls pd.1).right = false
    else pd.1.1 + 1 < m.rows ∧ (m.walls pd.1).bottom = false

/-- The number of open boundary pairs between adjacent cells. -/
def openPairCount (m : Maze) : Nat := (canonicalEdges m).card

theorem mem_canonicalEdges (m : Maze) (pd : Coord × Bool) :
    pd ∈ canonicalEdges m ↔
      pd.1.1 < m.rows ∧ pd.1.2 < m.cols ∧
      (if pd.2 then pd.1.2 + 1 < m.cols ∧ (m.walls pd.1).right = false
       else pd.1.1 + 1 < m.rows ∧ (m.walls pd.1).bottom = false) := by
  unfold canonicalEdges
  rw [Finset.mem_filter, Finset.mem_product, mem_boundsFinset]
  simp only [Finset.mem_univ, and_true]
  tauto

end MazeSpec

namespace MazeSpec

/-- Membership characterization of `get_unvisited_neighbors`. -/
theorem mem_unvisitedNeighbors (m : Maze) (vis : Finset Coord) (p q : Coord) :
    q ∈ unvisitedNeighbors m vis p ↔
      q ∉ vis ∧ q.1 < m.rows ∧ q.2 < m.cols ∧
      ((0 < p.1 ∧ q = (p.1 - 1, p.2)) ∨
       (q = (p.1, p.2 + 1)) ∨
       (q = (p.1 + 1, p.2)) ∨
       (0 < p.2 ∧ q = (p.1, p.2 - 1))) := by
  unfold unvisitedNeighbors Maze.index
  simp only [List.mem_filter, List.mem_filterMap, List.mem_cons, List.not_mem_nil, or_false,
    id_eq, decide_eq_true_eq, decide_not, Bool.not_eq_true', decide_eq_false_iff_not]
  constructor
  · rintro ⟨⟨o, ho, hoq⟩, hvis⟩
    rcases ho with rfl | rfl | rfl | rfl <;> split_ifs at hoq with hcond <;>
      simp only [Option.some.injEq, reduceCtorEq] at hoq <;>
      push_neg at hcond <;>
      subst hoq <;>
      refine ⟨hvis, by omega, by omega, ?_⟩
    · exact Or.inl ⟨by omega, by rw [Prod.mk.injEq]; omega⟩
    · exact Or.inr (Or.inl (by rw [Prod.mk.injEq]; omega))
    · exact Or.inr (Or.inr (Or.inl (by rw [Prod.mk.injEq]; omega)))
    · exact Or.inr (Or.inr (Or.inr ⟨by omega, by rw [Prod.mk.injEq]; omega⟩))
  · rintro ⟨hvis, hb1, hb2, (⟨hp, rfl⟩ | rfl | rfl | ⟨hp, rfl⟩)⟩
    · refine ⟨⟨some (p.1 - 1, p.2), ?_, rfl⟩, hvis⟩
      refine Or.inl ?_
      rw [if_neg (by push_neg; omega)]
      simp only [Option.some.injEq]
      rw [Prod.mk.injEq]
      omega
    · refine ⟨⟨some (p.1, p.2 + 1), ?_, rfl⟩, hvis⟩
      refine Or.inr (Or.inl ?_)
      rw [if_neg (by push_neg; omega)]
      simp only [Option.some.injEq]
      rw [Prod.mk.injEq]
      omega
    · refine ⟨⟨some (p.1 + 1, p.2), ?_, rfl⟩, hvis⟩
      refine Or.inr (Or.inr (Or.inl ?_))
      rw [if_neg (by push_neg; omega)]
      simp only [Option.some.injEq]
      rw [Prod.mk.injEq]
      omega
    · refine ⟨⟨some (p.1, p.2 - 1), ?_, rfl⟩, hvis⟩
      refine Or.inr (Or.inr (Or.inr ?_))
      rw [if_neg (by push_neg; omega)]
      simp only [Option.some.injEq]
      rw [Prod.mk.injEq]
      omega

end MazeSpec

namespace MazeSpec

open SimpleGraph

/-- Every non-nil walk ends with an edge into its endpoint. -/
theorem walk_last_edge {V : Type} {G : SimpleGraph V} :
    ∀ {a b : V} (p : G.Walk a b), ¬p.Nil → ∃ c, G.Adj c b ∧ s(c, b) ∈ p.edges := by
  intro a b p
  induction p with
  | nil => intro h; exact absurd Walk.Nil.nil h
  | cons hadj q ih =>
    intro _
    by_cases hq : q.Nil
    · have hxb := hq.eq
      subst hxb
      exact ⟨_, hadj, by rw [Walk.edges_cons]; exact List.mem_cons_self _ _⟩
    · obtain ⟨c, hc, hmem⟩ := ih hq
      exact ⟨c, hc, by rw [Walk.edges_cons]; exact List.mem_cons_of_mem _ hmem⟩

/-- Adding a single edge to an isolated vertex preserves acyclicity. -/
theorem isAcyclic_add_leaf {V : Type} [DecidableEq V] (G G' : SimpleGraph V) (u w : V) (hne : u ≠ w)
    (hiso : ∀ x, ¬G.Adj w x)
    (hchar : ∀ a b, G'.Adj a b ↔ G.Adj a b ∨ (a = u ∧ b = w) ∨ (a = w ∧ b = u))
    (hacyc : G.IsAcyclic) : G'.IsAcyclic := by
  intro v cyc hcyc
  by_cases hw : w ∈ cyc.support
  · have hcyc' := hcyc.rotate hw
    have hnn : ¬(cyc.rotate hw).Nil := hcyc'.not_nil
    obtain ⟨x, hadj, q, hq⟩ := Walk.not_nil_iff.mp hnn
    rw [hq] at hcyc'
    have hx : u = x := by
      rcases (hchar w x).mp hadj with hG | ⟨hwu, _⟩ | ⟨_, hxu⟩
      · exact absurd hG (hiso x)
      · exact absurd hwu.symm hne
      · exact hxu.symm
    subst hx
    have hqnn : ¬q.Nil := Walk.not_nil_of_ne hne
    obtain ⟨c, hc, hmem⟩ := walk_last_edge q hqnn
    have hcu : u = c := by
      rcases (hchar c w).mp hc with hG | ⟨hcu, _⟩ | ⟨_, hww⟩
      · exact absurd (G.symm hG) (hiso c)
      · exact hcu.symm
      · exact absurd hww.symm hne
    subst hcu
    have hnodup := hcyc'.toIsTrail.edges_nodup
    rw [Walk.edges_cons] at hnodup
    rw [List.nodup_cons] at hnodup
    exact hnodup.1 (by rw [Sym2.eq_swap] at hmem; exact hmem)
  · have hedges : ∀ e ∈ cyc.edges, e ∈ G.edgeSet := by
      intro e he
      induction e using Sym2.ind with
      | _ a b =>
        have hadj := cyc.adj_of_mem_edges he
        have ha := cyc.fst_mem_support_of_mem_edges he
        have hb := cyc.snd_mem_support_of_mem_edges he
        rcases (hchar a b).mp hadj with hG | ⟨_, hbw⟩ | ⟨haw, _⟩
        · exact hG
        · exact absurd (hbw ▸ hb) hw
        · exact absurd (haw ▸ ha) hw
    exact hacyc (cyc.transfer G hedges) (hcyc.transfer hedges)

/-- Opening the boundary `(r,c) | (r,c+1)` adds exactly that pair to the
neighbour relation. -/
theorem mem_neighbors_removeWalls_right (m : Maze) (r c : Nat)
    (hr : r < m.rows) (hc : c + 1 < m.cols) (a b : Coord) :
    b ∈ neighborsCoord a (removeWalls m (r, c) (r, c + 1)) ↔
      b ∈ neighborsCoord a m ∨ (a = (r, c) ∧ b = (r, c + 1)) ∨
        (a = (r, c + 1) ∧ b = (r, c)) := by
  have hw := removeWalls_right m r c
  rw [mem_neighborsCoord, mem_neighborsCoord]
  rw [show (removeWalls m (r, c) (r, c + 1)).rows = m.rows from rfl,
      show (removeWalls m (r, c) (r, c + 1)).cols = m.cols from rfl, hw]
  by_cases h1 : a = (r, c)
  · subst h1
    have hc' : c < m.cols - 1 := by omega
    simp [setWall, Cell.openRight, Cell.openLeft, Prod.mk.injEq, hc']
    tauto
  · by_cases h2 : a = (r, c + 1)
    · subst h2
      have hp2 : 0 < c + 1 := by omega
      simp [setWall, Cell.openRight, Cell.openLeft, Prod.mk.injEq, hp2]
      tauto
    · rw [setWall_other _ _ _ _ h2, setWall_other _ _ _ _ h1]
      simp [h1, h2]

theorem neighborsCoord_congr (m m' : Maze) (h1 : m.rows = m'.rows)
    (h2 : m.cols = m'.cols) (h3 : m.walls = m'.walls) (p : Coord) :
    neighborsCoord p m = neighborsCoord p m' := by
  unfold neighborsCoord
  rw [h1, h2, h3]

/-- `remove_walls` called with the arguments in the opposite order
carves the same walls (horizontal case). -/
theorem removeWalls_left_walls (m : Maze) (r c : Nat) :
    (removeWalls m (r, c + 1) (r, c)).walls = (removeWalls m (r, c) (r, c + 1)).walls := by
  rw [removeWalls_left, removeWalls_right]
  apply setWall_comm
  intro hcontra
  have := congrArg Prod.snd hcontra
  simp at this

/-- `remove_walls` called with the arguments in the opposite order
carves the same walls (vertical case). -/
theorem removeWalls_up_walls (m : Maze) (r c : Nat) :
    (removeWalls m (r + 1, c) (r, c)).walls = (removeWalls m (r, c) (r + 1, c)).walls := by
  rw [removeWalls_up, removeWalls_down]
  apply setWall_comm
  intro hcontra
  have := congrArg Prod.fst hcontra
  simp at this

/-- Opening the boundary `(r,c) | (r+1,c)` adds exactly that pair to the
neighbour relation. -/
theorem mem_neighbors_removeWalls_down (m : Maze) (r c : Nat)
    (hr : r + 1 < m.rows) (hc : c < m.cols) (a b : Coord) :
    b ∈ neighborsCoord a (removeWalls m (r, c) (r + 1, c)) ↔
      b ∈ neighborsCoord a m ∨ (a = (r, c) ∧ b = (r + 1, c)) ∨
        (a = (r + 1, c) ∧ b = (r, c)) := by
  have hw := removeWalls_down m r c
  rw [mem_neighborsCoord, mem_neighborsCoord]
  rw [show (removeWalls m (r, c) (r + 1, c)).rows = m.rows from rfl,
      show (removeWalls m (r, c) (r + 1, c)).cols = m.cols from rfl, hw]
  by_cases h1 : a = (r, c)
  · subst h1
    have hr' : r < m.rows - 1 := by omega
    simp [setWall, Cell.openBottom, Cell.openTop, Prod.mk.injEq, hr']
    tauto
  · by_cases h2 : a = (r + 1, c)
    · subst h2
      have hp2 : 0 < r + 1 := by omega
      simp [setWall, Cell.openBottom, Cell.openTop, Prod.mk.injEq, hp2]
      tauto
    · rw [setWall_other _ _ _ _ h2, setWall_other _ _ _ _ h1]
      simp [h1, h2]

/-- `remove_walls` on any grid-adjacent pair adds exactly that pair to
the neighbour relation. -/
theorem mem_neighbors_removeWalls (m : Maze) (u w : Coord) (hadj : gridAdj m u w)
    (a b : Coord) :
    b ∈ neighborsCoord a (removeWalls m u w) ↔
      b ∈ neighborsCoord a m ∨ (a = u ∧ b = w) ∨ (a = w ∧ b = u) := by
  obtain ⟨⟨hu1, hu2⟩, ⟨hw1, hw2⟩, hrel⟩ := hadj
  obtain ⟨ur, uc⟩ := u
  obtain ⟨wr, wc⟩ := w
  simp only at hu1 hu2 hw1 hw2
  rcases hrel with ⟨hr, hcol | hcol⟩ | ⟨hcol, hrow | hrow⟩
  · simp only at hr hcol
    obtain rfl := hr
    obtain rfl := hcol
    rw [mem_neighbors_removeWalls_right m ur uc hu1 hw2 a b]
  · simp only at hr hcol
    obtain rfl := hr
    obtain rfl := hcol
    have he := neighborsCoord_congr (removeWalls m (ur, wc + 1) (ur, wc))
      (removeWalls m (ur, wc) (ur, wc + 1)) rfl rfl (removeWalls_left_walls m ur wc) a
    rw [he, mem_neighbors_removeWalls_right m ur wc hu1 hu2 a b]
    tauto
  · simp only at hcol hrow
    obtain rfl := hcol
    obtain rfl := hrow
    rw [mem_neighbors_removeWalls_down m ur uc hw1 hu2 a b]
  · simp only at hcol hrow
    obtain rfl := hcol
    obtain rfl := hrow
    have he := neighborsCoord_congr (removeWalls m (wr + 1, uc) (wr, uc))
      (removeWalls m (wr, uc) (wr + 1, uc)) rfl rfl (removeWalls_up_walls m wr uc) a
    rw [he, mem_neighbors_removeWalls_down m wr uc hu1 hu2 a b]
    tauto

end MazeSpec

namespace MazeSpec

theorem canonicalEdges_congr (m m' : Maze) (h1 : m.rows = m'.rows)
    (h2 : m.cols = m'.cols) (h3 : m.walls = m'.walls) :
    canonicalEdges m = canonicalEdges m' := by
  unfold canonicalEdges boundsFinset
  rw [h1, h2, h3]

theorem canonicalEdges_removeWalls_right (m : Maze) (r c : Nat)
    (hr : r < m.rows) (hc : c + 1 < m.cols) :
    canonicalEdges (removeWalls m (r, c) (r, c + 1)) =
      insert ((r, c), true) (canonicalEdges m) := by
  have hw := removeWalls_right m r c
  ext pd
  obtain ⟨p, d⟩ := pd
  rw [Finset.mem_insert, mem_canonicalEdges, mem_canonicalEdges]
  rw [show (removeWalls m (r, c) (r, c + 1)).rows = m.rows from rfl,
      show (removeWalls m (r, c) (r, c + 1)).cols = m.cols from rfl, hw]
  by_cases h1 : p = (r, c)
  · subst h1
    cases d
    · simp [setWall, Cell.openRight, Cell.openLeft, Prod.mk.injEq]
    · simp only [setWall, Cell.openRight, Cell.openLeft, Prod.mk.injEq]
      simp [hr, hc, Nat.lt_of_succ_lt hc]
  · by_cases h2 : p = (r, c + 1)
    · subst h2
      rw [setWall_same]
      rw [setWall_other _ _ _ _ (by intro hcontra; rw [Prod.mk.injEq] at hcontra; omega)]
      cases d <;>
        simp [Cell.openRight, Cell.openLeft, Prod.mk.injEq, h1] <;> omega
    · rw [setWall_other _ _ _ _ h2, setWall_other _ _ _ _ h1]
      constructor
      · intro h
        exact Or.inr h
      · rintro (heq | h)
        · exfalso
          apply h1
          rw [Prod.mk.injEq] at heq
          exact heq.1
        · exact h

theorem canonicalEdges_removeWalls_down (m : Maze) (r c : Nat)
    (hr : r + 1 < m.rows) (hc : c < m.cols) :
    canonicalEdges (removeWalls m (r, c) (r + 1, c)) =
      insert ((r, c), false) (canonicalEdges m) := by
  have hw := removeWalls_down m r c
  ext pd
  obtain ⟨p, d⟩ := pd
  rw [Finset.mem_insert, mem_canonicalEdges, mem_canonicalEdges]
  rw [show (removeWalls m (r, c) (r + 1, c)).rows = m.rows from rfl,
      show (removeWalls m (r, c) (r + 1, c)).cols = m.cols from rfl, hw]
  by_cases h1 : p = (r, c)
  · subst h1
    cases d
    · simp only [setWall, Cell.openBottom, Cell.openTop, Prod.mk.injEq]
      simp [hr, hc, Nat.lt_of_succ_lt hr]
    · simp [setWall, Cell.openBottom, Cell.openTop, Prod.mk.injEq]
  · by_cases h2 : p = (r + 1, c)
    · subst h2
      rw [setWall_same]
      rw [setWall_other _ _ _ _ (by intro hcontra; rw [Prod.mk.injEq] at hcontra; omega)]
      cases d <;>
        simp [Cell.openBottom, Cell.openTop, Prod.mk.injEq, h1] <;> omega
    · rw [setWall_other _ _ _ _ h2, setWall_other _ _ _ _ h1]
      constructor
      · intro h
        exact Or.inr h
      · rintro (heq | h)
        · exfalso
          apply h1
          rw [Prod.mk.injEq] at heq
          exact heq.1
        · exact h

/-- `remove_walls` on a grid-adjacent pair opens exactly that boundary
in the open-boundary relation. -/
theorem openAdj_removeWalls (m : Maze) (u w : Coord) (hadj : gridAdj m u w) (a b : Coord) :
    openAdj (removeWalls m u w) a b ↔
      openAdj m a b ∨ (a = u ∧ b = w) ∨ (a = w ∧ b = u) := by
  unfold openAdj
  rw [mem_neighbors_removeWalls m u w hadj a b, mem_neighbors_removeWalls m u w hadj b a]
  tauto

theorem openPairCount_removeWalls_right (m : Maze) (r c : Nat)
    (hr : r < m.rows) (hc : c + 1 < m.cols)
    (hclosed : (m.walls (r, c)).right = true) :
    openPairCount (removeWalls m (r, c) (r, c + 1)) = openPairCount m + 1 := by
  unfold openPairCount
  rw [canonicalEdges_removeWalls_right m r c hr hc, Finset.card_insert_of_not_mem]
  intro hmem
  rw [mem_canonicalEdges] at hmem
  simp [hclosed] at hmem

theorem openPairCount_removeWalls_down (m : Maze) (r c : Nat)
    (hr : r + 1 < m.rows) (hc : c < m.cols)
    (hclosed : (m.walls (r, c)).bottom = true) :
    openPairCount (removeWalls m (r, c) (r + 1, c)) = openPairCount m + 1 := by
  unfold openPairCount
  rw [canonicalEdges_removeWalls_down m r c hr hc, Finset.card_insert_of_not_mem]
  intro hmem
  rw [mem_canonicalEdges] at hmem
  simp [hclosed] at hmem

end MazeSpec

namespace MazeSpec

/-- The neighbour "shapes" a cell can list (up, right, down, left),
without bound conditions. -/
def gridNbr (p q : Coord) : Prop :=
  (0 < p.1 ∧ q = (p.1 - 1, p.2)) ∨ q = (p.1, p.2 + 1) ∨
    q = (p.1 + 1, p.2) ∨ (0 < p.2 ∧ q = (p.1, p.2 - 1))

theorem gridAdj_of_gridNbr (m : Maze) (p q : Coord)
    (hp1 : p.1 < m.rows) (hp2 : p.2 < m.cols)
    (hq1 : q.1 < m.rows) (hq2 : q.2 < m.cols) (h : gridNbr p q) : gridAdj m p q := by
  refine ⟨⟨hp1, hp2⟩, ⟨hq1, hq2⟩, ?_⟩
  rcases h with ⟨hp, rfl⟩ | rfl | rfl | ⟨hp, rfl⟩
  · exact Or.inr ⟨rfl, Or.inr (by omega)⟩
  · exact Or.inl ⟨rfl, Or.inl rfl⟩
  · exact Or.inr ⟨rfl, Or.inl rfl⟩
  · exact Or.inl ⟨rfl, Or.inr (by omega)⟩

/-- `remove_walls` on a closed grid-adjacent boundary increments the
open-pair count by exactly one. -/
theorem openPairCount_removeWalls_adj (m : Maze) (u w : Coord) (hadj : gridAdj m u w)
    (hc1 : w ∉ neighborsCoord u m) (hc2 : u ∉ neighborsCoord w m) :
    openPairCount (removeWalls m u w) = openPairCount m + 1 := by
  obtain ⟨⟨hu1, hu2⟩, ⟨hw1, hw2⟩, hrel⟩ := hadj
  obtain ⟨ur, uc⟩ := u
  obtain ⟨wr, wc⟩ := w
  simp only at hu1 hu2 hw1 hw2
  rcases hrel with ⟨hr, hcol | hcol⟩ | ⟨hcol, hrow | hrow⟩
  · simp only at hr hcol
    obtain rfl := hr
    obtain rfl := hcol
    refine openPairCount_removeWalls_right m ur uc hu1 hw2 ?_
    by_contra hfl
    rw [Bool.not_eq_true] at hfl
    exact hc1 ((mem_neighborsCoord m (ur, uc) (ur, uc + 1)).mpr
      (Or.inr (Or.inl ⟨by simpa using hfl, by simp; omega, rfl⟩)))
  · simp only at hr hcol
    obtain rfl := hr
    obtain rfl := hcol
    have he : openPairCount (removeWalls m (ur, wc + 1) (ur, wc)) =
        openPairCount (removeWalls m (ur, wc) (ur, wc + 1)) := by
      unfold openPairCount
      rw [canonicalEdges_congr (removeWalls m (ur, wc + 1) (ur, wc))
        (removeWalls m (ur, wc) (ur, wc + 1)) rfl rfl (removeWalls_left_walls m ur wc)]
    rw [he]
    refine openPairCount_removeWalls_right m ur wc hu1 hu2 ?_
    by_contra hfl
    rw [Bool.not_eq_true] at hfl
    exact hc2 ((mem_neighborsCoord m (ur, wc) (ur, wc + 1)).mpr
      (Or.inr (Or.inl ⟨by simpa using hfl, by simp; omega, rfl⟩)))
  · simp only at hcol hrow
    obtain rfl := hcol
    obtain rfl := hrow
    refine openPairCount_removeWalls_down m ur uc hw1 hu2 ?_
    by_contra hfl
    rw [Bool.not_eq_true] at hfl
    exact hc1 ((mem_neighborsCoord m (ur, uc) (ur + 1, uc)).mpr
      (Or.inr (Or.inr (Or.inl ⟨by simpa using hfl, by simp; omega, rfl⟩))))
  · simp only at hcol hrow
    obtain rfl := hcol
    obtain rfl := hrow
    have he : openPairCount (removeWalls m (wr + 1, uc) (wr, uc)) =
        openPairCount (removeWalls m (wr, uc) (wr + 1, uc)) := by
      unfold openPairCount
      rw [canonicalEdges_congr (removeWalls m (wr + 1, uc) (wr, uc))
        (removeWalls m (wr, uc) (wr + 1, uc)) rfl rfl (removeWalls_up_walls m wr uc)]
    rw [he]
    refine openPairCount_removeWalls_down m wr uc hu1 hu2 ?_
    by_contra hfl
    rw [Bool.not_eq_true] at hfl
    exact hc2 ((mem_neighborsCoord m (wr, uc) (wr + 1, uc)).mpr
      (Or.inr (Or.inr (Or.inl ⟨by simpa using hfl, by simp; omega, rfl⟩))))

end MazeSpec

namespace MazeSpec

/-- Conversion of an in-bounds coordinate to a grid vertex. -/
def toFin (rows cols : Nat) (p : Coord) (h1 : p.1 < rows) (h2 : p.2 < cols) :
    Fin rows × Fin cols :=
  (⟨p.1, h1⟩, ⟨p.2, h2⟩)

theorem coords_toFin (rows cols : Nat) (p : Coord) (h1 : p.1 < rows) (h2 : p.2 < cols)
    (x : Fin rows × Fin cols) :
    ((x.1.1, x.2.1) : Coord) = p ↔ x = toFin rows cols p h1 h2 := by
  constructor
  · intro h
    rw [Prod.mk.injEq] at h
    obtain ⟨ha, hb⟩ := h
    unfold toFin
    rw [Prod.ext_iff]
    exact ⟨Fin.ext ha, Fin.ext hb⟩
  · intro h
    subst h
    rfl

/-- The loop invariant of `generate_maze`: the carved boundaries form a
tree on the visited cells, the stack records the path being carved, and
every fully processed cell has all its grid neighbours visited. -/
structure GenInv (rows cols : Nat) (s : GenState) : Prop where
  rows_eq : s.maze.rows = rows
  cols_eq : s.maze.cols = cols
  start_mem : ((0, 0) : Coord) ∈ s.visited
  vis_bounds : ∀ p ∈ s.visited, p.1 < rows ∧ p.2 < cols
  stack_vis : ∀ p ∈ s.stack, p ∈ s.visited
  sym : WallSym s.maze
  edges_vis : ∀ a b : Coord, b ∈ neighborsCoord a s.maze → a ∈ s.visited ∧ b ∈ s.visited
  count : openPairCount s.maze + 1 = s.visited.card
  conn : ∀ p ∈ s.visited, Relation.ReflTransGen (openAdj s.maze) (0, 0) p
  expanded : ∀ p ∈ s.visited, p ∉ s.stack → ∀ q : Coord,
      q.1 < rows → q.2 < cols → gridNbr p q → q ∈ s.visited
  acyc : (mazeGraph rows cols s.maze).IsAcyclic

/-- The invariant holds initially. -/
theorem genInv_init (rows cols : Nat) (hr : 1 ≤ rows) (hc : 1 ≤ cols) :
    GenInv rows cols (genInit rows cols) := by
  refine ⟨rfl, rfl, by simp [genInit], ?_, ?_, wallSym_init rows cols, ?_, ?_, ?_, ?_, ?_⟩
  · intro p hp
    simp [genInit] at hp
    subst hp
    exact ⟨hr, hc⟩
  · intro p hp
    simp [genInit] at hp
    simp [genInit, hp]
  · intro a b hb
    rw [mem_neighborsCoord] at hb
    simp [genInit, Maze.init, Cell.init] at hb
  · have hce : canonicalEdges (Maze.init rows cols) = ∅ := by
      ext pd
      rw [mem_canonicalEdges]
      simp only [Finset.not_mem_empty, iff_false, not_and]
      intro h1 h2
      cases hpd : pd.2 <;> simp [hpd, Maze.init, Cell.init]
    simp [genInit, openPairCount, hce]
  · intro p hp
    simp [genInit] at hp
    subst hp
    exact Relation.ReflTransGen.refl
  · intro p hp hstk
    simp [genInit] at hp hstk
    exact absurd hp hstk
  · intro v cyc hcyc
    have : ∀ e ∈ cyc.edges, False := by
      intro e he
      induction e using Sym2.ind with
      | _ a b =>
        have hadj := cyc.adj_of_mem_edges he
        have := hadj.1
        rw [mem_neighborsCoord] at this
        simp [genInit, Maze.init, Cell.init] at this
    have hnn := hcyc.not_nil
    rw [SimpleGraph.Walk.not_nil_iff] at hnn
    obtain ⟨x, hadj, q, rfl⟩ := hnn
    exact this _ (by rw [SimpleGraph.Walk.edges_cons]; exact List.mem_cons_self _ _)

end MazeSpec

namespace MazeSpec

/-- The push branch of `generate_maze`'s loop preserves the invariant
and decreases the termination measure. -/
theorem genPush_inv (rows cols : Nat) (mz : Maze) (vis : Finset Coord)
    (current : Coord) (rest : List Coord) (nxt : Coord)
    (inv : GenInv rows cols ⟨mz, vis, current :: rest⟩)
    (hmem : nxt ∈ unvisitedNeighbors mz vis current) :
    GenInv rows cols ⟨removeWalls mz current nxt, insert nxt vis, nxt :: current :: rest⟩ ∧
      (nxt :: current :: rest).length + 2 * (rows * cols - (insert nxt vis).card) + 1 =
        (current :: rest).length + 2 * (rows * cols - vis.card) := by
  have hrows : mz.rows = rows := inv.rows_eq
  have hcols : mz.cols = cols := inv.cols_eq
  have hstart : ((0, 0) : Coord) ∈ vis := inv.start_mem
  have hvb : ∀ p ∈ vis, p.1 < rows ∧ p.2 < cols := inv.vis_bounds
  have hsv : ∀ p ∈ (current :: rest), p ∈ vis := inv.stack_vis
  have hsym : WallSym mz := inv.sym
  have hev : ∀ a b : Coord, b ∈ neighborsCoord a mz → a ∈ vis ∧ b ∈ vis := inv.edges_vis
  have hcount : openPairCount mz + 1 = vis.card := inv.count
  have hconn : ∀ p ∈ vis, Relation.ReflTransGen (openAdj mz) (0, 0) p := inv.conn
  have hexp : ∀ p ∈ vis, p ∉ (current :: rest) → ∀ q : Coord,
      q.1 < rows → q.2 < cols → gridNbr p q → q ∈ vis := inv.expanded
  have hacyc : (mazeGraph rows cols mz).IsAcyclic := inv.acyc
  rw [mem_unvisitedNeighbors] at hmem
  obtain ⟨hnv, hq1, hq2, hshape⟩ := hmem
  have hcur_vis : current ∈ vis := hsv current (List.mem_cons_self _ _)
  have hcur_b := hvb current hcur_vis
  have hnxt_b : nxt.1 < rows ∧ nxt.2 < cols :=
    ⟨by rw [← hrows]; exact hq1, by rw [← hcols]; exact hq2⟩
  have hadj : gridAdj mz current nxt :=
    gridAdj_of_gridNbr mz current nxt (by rw [hrows]; exact hcur_b.1)
      (by rw [hcols]; exact hcur_b.2) hq1 hq2 hshape
  have hcne : current ≠ nxt := by
    rcases hshape with ⟨hp, rfl⟩ | rfl | rfl | ⟨hp, rfl⟩ <;>
      (intro hcontra; rw [Prod.mk.injEq] at hcontra; omega)
  have hc1 : nxt ∉ neighborsCoord current mz := fun hx => hnv (hev current nxt hx).2
  have hc2 : current ∉ neighborsCoord nxt mz := fun hx => hnv (hev nxt current hx).1
  have hchar := mem_neighbors_removeWalls mz current nxt hadj
  have hoadj := openAdj_removeWalls mz current nxt hadj
  have hcard_lt : vis.card < rows * cols := by
    have hss : vis ⊂ Finset.range rows ×ˢ Finset.range cols := by
      constructor
      · intro p hp
        rw [Finset.mem_product, Finset.mem_range, Finset.mem_range]
        exact hvb p hp
      · intro hsup
        refine hnv (hsup ?_)
        rw [Finset.mem_product, Finset.mem_range, Finset.mem_range]
        exact hnxt_b
    have := Finset.card_lt_card hss
    simpa [Finset.card_product, Finset.card_range] using this
  constructor
  · refine ⟨(removeWalls_rows mz current nxt).trans hrows,
      (removeWalls_cols mz current nxt).trans hcols,
      Finset.mem_insert_of_mem hstart, ?_, ?_,
      wallSym_removeWalls mz current nxt hsym hadj, ?_, ?_, ?_, ?_, ?_⟩
    · intro p hp
      rcases Finset.mem_insert.mp hp with rfl | hp'
      · exact hnxt_b
      · exact hvb p hp'
    · intro p hp
      rcases List.mem_cons.mp hp with rfl | hp'
      · exact Finset.mem_insert_self p vis
      · exact Finset.mem_insert_of_mem (hsv p hp')
    · intro a b hb
      rcases (hchar a b).mp hb with hold | ⟨rfl, rfl⟩ | ⟨rfl, rfl⟩
      · obtain ⟨ha', hb'⟩ := hev a b hold
        exact ⟨Finset.mem_insert_of_mem ha', Finset.mem_insert_of_mem hb'⟩
      · exact ⟨Finset.mem_insert_of_mem hcur_vis, Finset.mem_insert_self _ _⟩
      · exact ⟨Finset.mem_insert_self _ _, Finset.mem_insert_of_mem hcur_vis⟩
    · rw [openPairCount_removeWalls_adj mz current nxt hadj hc1 hc2,
        Finset.card_insert_of_not_mem hnv]
      omega
    · intro p hp
      have hmono : ∀ a b : Coord, openAdj mz a b → openAdj (removeWalls mz current nxt) a b :=
        fun a b hab => (hoadj a b).mpr (Or.inl hab)
      rcases Finset.mem_insert.mp hp with rfl | hp'
      · refine Relation.ReflTransGen.tail
          (Relation.ReflTransGen.mono hmono (hconn current hcur_vis)) ?_
        exact (hoadj current p).mpr (Or.inr (Or.inl ⟨rfl, rfl⟩))
      · exact Relation.ReflTransGen.mono hmono (hconn p hp')
    · intro p hp hstk q hq1' hq2' hnbr
      have hpne : p ≠ nxt := fun hcontra => hstk (hcontra ▸ List.mem_cons_self _ _)
      have hp' : p ∈ vis := by
        rcases Finset.mem_insert.mp hp with rfl | hp'
        · exact absurd rfl hpne
        · exact hp'
      have hstk' : p ∉ (current :: rest) := fun hcontra =>
        hstk (List.mem_cons_of_mem _ hcontra)
      exact Finset.mem_insert_of_mem (hexp p hp' hstk' q hq1' hq2' hnbr)
    · refine isAcyclic_add_leaf (mazeGraph rows cols mz)
        (mazeGraph rows cols (removeWalls mz current nxt))
        (toFin rows cols current hcur_b.1 hcur_b.2)
        (toFin rows cols nxt hnxt_b.1 hnxt_b.2) ?_ ?_ ?_ hacyc
      · intro hcontra
        apply hcne
        have h1 := congrArg (fun x : Fin rows × Fin cols => ((x.1.1, x.2.1) : Coord)) hcontra
        simpa [toFin] using h1
      · intro x hAdj
        exact hnv (hev (x.1.1, x.2.1) nxt hAdj.2).2
      · intro a b
        show openAdj (removeWalls mz current nxt) (a.1.1, a.2.1) (b.1.1, b.2.1) ↔ _
        rw [hoadj (a.1.1, a.2.1) (b.1.1, b.2.1)]
        constructor
        · rintro (hold | ⟨ha, hb⟩ | ⟨ha, hb⟩)
          · exact Or.inl hold
          · exact Or.inr (Or.inl ⟨(coords_toFin rows cols current hcur_b.1 hcur_b.2 a).mp ha,
              (coords_toFin rows cols nxt hnxt_b.1 hnxt_b.2 b).mp hb⟩)
          · exact Or.inr (Or.inr ⟨(coords_toFin rows cols nxt hnxt_b.1 hnxt_b.2 a).mp ha,
              (coords_toFin rows cols current hcur_b.1 hcur_b.2 b).mp hb⟩)
        · rintro (hold | ⟨rfl, rfl⟩ | ⟨rfl, rfl⟩)
          · exact Or.inl hold
          · exact Or.inr (Or.inl ⟨rfl, rfl⟩)
          · exact Or.inr (Or.inr ⟨rfl, rfl⟩)
  · have hins : (insert nxt vis).card = vis.card + 1 := Finset.card_insert_of_not_mem hnv
    simp only [List.length_cons, hins]
    omega

end MazeSpec

namespace MazeSpec

/-- One generator-loop iteration preserves the invariant and decreases
the measure `|stack| + 2·(cells − |visited|)` by exactly one. -/
theorem genStep_inv (rows cols rng : Nat) (s : GenState)
    (inv : GenInv rows cols s) (hne : s.stack ≠ []) :
    GenInv rows cols (genStep rng s) ∧
      (genStep rng s).stack.length + 2 * (rows * cols - (genStep rng s).visited.card) + 1 =
        s.stack.length + 2 * (rows * cols - s.visited.card) := by
  obtain ⟨mz, vis, stk⟩ := s
  cases stk with
  | nil => exact absurd rfl hne
  | cons current rest =>
    by_cases h : unvisitedNeighbors mz vis current = []
    · have hstep : genStep rng ⟨mz, vis, current :: rest⟩ = ⟨mz, vis, rest⟩ := by
        simp [genStep, h]
      rw [hstep]
      constructor
      · refine ⟨inv.rows_eq, inv.cols_eq, inv.start_mem, inv.vis_bounds, ?_, inv.sym,
          inv.edges_vis, inv.count, inv.conn, ?_, inv.acyc⟩
        · intro p hp
          exact inv.stack_vis p (List.mem_cons_of_mem _ hp)
        · intro p hp hstk q hq1 hq2 hnbr
          by_cases hpc : p = current
          · subst hpc
            by_contra hqv
            have hqmem : q ∈ unvisitedNeighbors mz vis p := by
              rw [mem_unvisitedNeighbors]
              exact ⟨hqv, by rw [inv.rows_eq]; exact hq1, by rw [inv.cols_eq]; exact hq2, hnbr⟩
            rw [h] at hqmem
            exact List.not_mem_nil q hqmem
          · exact inv.expanded p hp (by
              intro hcontra
              rcases List.mem_cons.mp hcontra with h1 | h1
              · exact hpc h1
              · exact hstk h1) q hq1 hq2 hnbr
      · simp only [List.length_cons]
        omega
    · have hmem : (unvisitedNeighbors mz vis current).get
          ⟨rng % (unvisitedNeighbors mz vis current).length,
            Nat.mod_lt _ (List.length_pos.mpr h)⟩ ∈ unvisitedNeighbors mz vis current :=
        List.get_mem _ _ _
      have hstep : genStep rng ⟨mz, vis, current :: rest⟩ =
          ⟨removeWalls mz current ((unvisitedNeighbors mz vis current).get
              ⟨rng % (unvisitedNeighbors mz vis current).length,
                Nat.mod_lt _ (List.length_pos.mpr h)⟩),
            insert ((unvisitedNeighbors mz vis current).get
              ⟨rng % (unvisitedNeighbors mz vis current).length,
                Nat.mod_lt _ (List.length_pos.mpr h)⟩) vis,
            ((unvisitedNeighbors mz vis current).get
              ⟨rng % (unvisitedNeighbors mz vis current).length,
                Nat.mod_lt _ (List.length_pos.mpr h)⟩) :: current :: rest⟩ := by
        simp [genStep, h]
      rw [hstep]
      exact genPush_inv rows cols mz vis current rest _ inv hmem

/-- Running the loop with fuel at least the measure ends with an empty
stack and the invariant intact. -/
theorem genLoop_inv (rows cols : Nat) (rng : Nat → Nat) :
    ∀ (fuel t : Nat) (s : GenState), GenInv rows cols s →
      s.stack.length + 2 * (rows * cols - s.visited.card) ≤ fuel →
      GenInv rows cols (genLoop rng fuel t s) ∧ (genLoop rng fuel t s).stack = [] := by
  intro fuel
  induction fuel with
  | zero =>
    intro t s inv hm
    have : s.stack.length = 0 := by omega
    exact ⟨inv, List.length_eq_zero.mp this⟩
  | succ n ih =>
    intro t s inv hm
    rw [genLoop]
    by_cases hs : s.stack = []
    · rw [if_pos hs]
      exact ⟨inv, hs⟩
    · rw [if_neg hs]
      obtain ⟨inv', hmeas⟩ := genStep_inv rows cols (rng t) s inv hs
      refine ih (t + 1) _ inv' ?_
      omega

/-- When the loop has drained its stack, every in-bounds cell has been
visited (grid connectivity: induction on `row + col`). -/
theorem visited_eq_bounds (rows cols : Nat) (s : GenState)
    (inv : GenInv rows cols s) (hs : s.stack = []) :
    s.visited = Finset.range rows ×ˢ Finset.range cols := by
  apply Finset.Subset.antisymm
  · intro p hp
    rw [Finset.mem_product, Finset.mem_range, Finset.mem_range]
    exact inv.vis_bounds p hp
  · intro p hp
    rw [Finset.mem_product, Finset.mem_range, Finset.mem_range] at hp
    have key : ∀ n : Nat, ∀ q : Coord, q.1 + q.2 = n → q.1 < rows → q.2 < cols →
        q ∈ s.visited := by
      intro n
      induction n using Nat.strong_induction_on with
      | _ n ih =>
        intro q hsum hq1 hq2
        by_cases h0 : q = (0, 0)
        · subst h0
          exact inv.start_mem
        · by_cases hq1pos : 0 < q.1
          · have hprev : ((q.1 - 1, q.2) : Coord) ∈ s.visited := by
              refine ih (n - 1) (by omega) (q.1 - 1, q.2) (by simp; omega) (by simp; omega)
                (by simp; omega)
            refine inv.expanded _ hprev (by rw [hs]; exact List.not_mem_nil _) q hq1 hq2 ?_
            refine Or.inr (Or.inr (Or.inl ?_))
            rw [Prod.mk.injEq]
            simp
            omega
          · have hq2pos : 0 < q.2 := by
              rcases Nat.eq_zero_or_pos q.2 with h2 | h2
              · exfalso
                apply h0
                rw [Prod.ext_iff]
                constructor <;> simp <;> omega
              · exact h2
            have hprev : ((q.1, q.2 - 1) : Coord) ∈ s.visited := by
              refine ih (n - 1) (by omega) (q.1, q.2 - 1) (by simp; omega) (by simp; omega)
                (by simp; omega)
            refine inv.expanded _ hprev (by rw [hs]; exact List.not_mem_nil _) q hq1 hq2 ?_
            refine Or.inr (Or.inl ?_)
            rw [Prod.mk.injEq]
            simp
            omega
    exact key (p.1 + p.2) p rfl hp.1 hp.2

/-- Transfer reflexive-transitive reachability over `openAdj` to graph
reachability on the vertex grid. -/
theorem reach_toFin (rows cols : Nat) (m : Maze)
    (hbnd : ∀ a b : Coord, openAdj m a b →
      (a.1 < rows ∧ a.2 < cols) ∧ (b.1 < rows ∧ b.2 < cols))
    (h0r : 0 < rows) (h0c : 0 < cols) :
    ∀ p : Coord, Relation.ReflTransGen (openAdj m) (0, 0) p →
      ∀ (h1 : p.1 < rows) (h2 : p.2 < cols),
        (mazeGraph rows cols m).Reachable (toFin rows cols (0, 0) h0r h0c)
          (toFin rows cols p h1 h2) := by
  intro p hrt
  induction hrt with
  | refl =>
    intro h1 h2
    rfl
  | tail hab hbc ih =>
    intro h1 h2
    rename_i b c
    obtain ⟨⟨hb1, hb2⟩, _⟩ := hbnd b c hbc
    refine (ih hb1 hb2).trans ?_
    refine SimpleGraph.Adj.reachable ?_
    show openAdj m _ _
    exact hbc

set_option maxHeartbeats 800000 in
/-- Claim C1: for every maze produced by `generate_maze` on a
`rows × cols` grid (`rows ≥ 1`, `cols ≥ 1`) and any injected random
stream, the number of open boundary pairs is exactly `rows*cols - 1`,
and the open-boundary graph on the cells is connected and acyclic — a
spanning tree ("perfect maze"). -/
theorem C1_generated_maze_spanning_tree (rows cols : Nat) (rng : Nat → Nat)
    (hr : 1 ≤ rows) (hc : 1 ≤ cols) :
    openPairCount (generateMaze rows cols rng) = rows * cols - 1 ∧
    (mazeGraph rows cols (generateMaze rows cols rng)).Connected ∧
    (mazeGraph rows cols (generateMaze rows cols rng)).IsAcyclic := by
  have hN : 1 ≤ rows * cols := Nat.one_le_iff_ne_zero.mpr (by positivity)
  have hinit := genInv_init rows cols hr hc
  have hm0 : (genInit rows cols).stack.length +
      2 * (rows * cols - (genInit rows cols).visited.card) ≤ 2 * rows * cols := by
    have h2 : 2 * rows * cols = 2 * (rows * cols) := by ring
    rw [h2]
    simp [genInit]
    omega
  obtain ⟨inv, hstk⟩ :=
    genLoop_inv rows cols rng (2 * rows * cols) 0 (genInit rows cols) hinit hm0
  have hveq := visited_eq_bounds rows cols _ inv hstk
  have hcard : (genLoop rng (2 * rows * cols) 0 (genInit rows cols)).visited.card =
      rows * cols := by
    rw [hveq]
    simp [Finset.card_product, Finset.card_range]
  have hcount := inv.count
  have hgm : generateMaze rows cols rng =
      (genLoop rng (2 * rows * cols) 0 (genInit rows cols)).maze := rfl
  refine ⟨by rw [hgm]; omega, ?_, inv.acyc⟩
  have hbnd : ∀ a b : Coord,
      openAdj (generateMaze rows cols rng) a b →
      (a.1 < rows ∧ a.2 < cols) ∧ (b.1 < rows ∧ b.2 < cols) := by
    intro a b hab
    obtain ⟨ha, hb⟩ := inv.edges_vis a b hab.1
    exact ⟨inv.vis_bounds a ha, inv.vis_bounds b hb⟩
  have hreach : ∀ x : Fin rows × Fin cols,
      (mazeGraph rows cols (generateMaze rows cols rng)).Reachable
        (toFin rows cols (0, 0) hr hc) x := by
    intro x
    have hxvis : ((x.1.1, x.2.1) : Coord) ∈
        (genLoop rng (2 * rows * cols) 0 (genInit rows cols)).visited := by
      rw [hveq, Finset.mem_product, Finset.mem_range, Finset.mem_range]
      exact ⟨x.1.2, x.2.2⟩
    have hrt := inv.conn _ hxvis
    have := reach_toFin rows cols (generateMaze rows cols rng) hbnd hr hc
      (x.1.1, x.2.1) hrt x.1.2 x.2.2
    have hx : toFin rows cols ((x.1.1, x.2.1) : Coord) x.1.2 x.2.2 = x := rfl
    rw [hx] at this
    exact this
  rw [SimpleGraph.connected_iff]
  refine ⟨?_, ⟨toFin rows cols (0, 0) hr hc⟩⟩
  intro x y
  exact ((hreach x).symm).trans (hreach y)

/-- Witness for C1 at a concrete instance: a 2×2 maze with the constant
random stream. -/
theorem C1_generated_maze_spanning_tree_witness :
    (1 ≤ 2 ∧ 1 ≤ 2) ∧
    (openPairCount (generateMaze 2 2 (fun _ => 0)) = 2 * 2 - 1 ∧
     (mazeGraph 2 2 (generateMaze 2 2 (fun _ => 0))).Connected ∧
     (mazeGraph 2 2 (generateMaze 2 2 (fun _ => 0))).IsAcyclic) :=
  ⟨⟨by decide, by decide⟩,
    C1_generated_maze_spanning_tree 2 2 (fun _ => 0) (by decide) (by decide)⟩

end MazeSpec

namespace MazeSpec

/-! ## C2: BFS shortest-path correctness -/

/-- A path in the open-boundary graph of `m`: a nonempty list of cells
starting at `a`, ending at `b`, each consecutive pair open-adjacent in
the direction of travel (`get_neighbors_coord`). -/
def IsPath (m : Maze) (a b : Coord) (p : List Coord) : Prop :=
  p.Chain' (fun x y => y ∈ neighborsCoord x m) ∧ p.head? = some a ∧ p.getLast? = some b

instance (m : Maze) (a b : Coord) (p : List Coord) : Decidable (IsPath m a b p) :=
  inferInstanceAs (Decidable
    (p.Chain' (fun x y => y ∈ neighborsCoord x m) ∧ p.head? = some a ∧ p.getLast? = some b))

theorem isPath_singleton (m : Maze) (a : Coord) : IsPath m a a [a] := by
  refine ⟨List.chain'_singleton a, rfl, rfl⟩

theorem isPath_length_pos (m : Maze) (a b : Coord) (p : List Coord)
    (h : IsPath m a b p) : 1 ≤ p.length := by
  rcases p with _ | ⟨x, t⟩
  · exact absurd h.2.1 (by simp)
  · simp

theorem isPath_cons (m : Maze) (a b v : Coord) (q : List Coord)
    (hab : b ∈ neighborsCoord a m) (hq : IsPath m b v q) : IsPath m a v (a :: q) := by
  obtain ⟨hch, hhd, hlast⟩ := hq
  rcases q with _ | ⟨x, t⟩
  · exact absurd hhd (by simp)
  · have hx : x = b := by simpa using hhd
    subst hx
    refine ⟨List.chain'_cons.mpr ⟨hab, hch⟩, rfl, ?_⟩
    simpa using hlast

theorem isPath_snoc (m : Maze) (a b c : Coord) (p : List Coord)
    (hp : IsPath m a b p) (hbc : c ∈ neighborsCoord b m) :
    IsPath m a c (p ++ [c]) := by
  obtain ⟨hch, hhd, hlast⟩ := hp
  have hne : p ≠ [] := by
    intro h
    subst h
    simp at hhd
  refine ⟨?_, ?_, ?_⟩
  · rw [List.chain'_append]
    refine ⟨hch, List.chain'_singleton c, ?_⟩
    intro x hx y hy
    rw [hlast] at hx
    simp at hx hy
    subst hx
    subst hy
    exact hbc
  · rw [List.head?_append_of_ne_nil _ hne]
    exact hhd
  · simp

/-- Neighbours of an in-bounds cell are in bounds. -/
theorem neighborsCoord_bounds (m : Maze) (p q : Coord)
    (hp1 : p.1 < m.rows) (hp2 : p.2 < m.cols) (hq : q ∈ neighborsCoord p m) :
    q.1 < m.rows ∧ q.2 < m.cols := by
  rw [mem_neighborsCoord] at hq
  rcases hq with ⟨_, h, rfl⟩ | ⟨_, h, rfl⟩ | ⟨_, h, rfl⟩ | ⟨_, h, rfl⟩ <;>
    constructor <;> simp <;> omega

/-- Any path from inside `vis` to outside `vis` passes through a
non-settled member of `vis` (`P` marks the non-settled cells): the cell
just before the first exit from `vis`.  The prefix up to that cell is
itself a path, shorter by at least one. -/
theorem path_crossing (m : Maze) (vis : Finset Coord) (P : Coord → Prop)
    (hcl : ∀ u ∈ vis, ¬ P u → ∀ v ∈ neighborsCoord u m, v ∈ vis) :
    ∀ (p : List Coord) (a v : Coord), IsPath m a v p → a ∈ vis → v ∉ vis →
      ∃ u q, u ∈ vis ∧ P u ∧ IsPath m a u q ∧ q.length + 1 ≤ p.length := by
  intro p
  induction p with
  | nil =>
    intro a v hp
    exact absurd hp.2.1 (by simp)
  | cons x t ih =>
    intro a v hp ha hv
    have hx : x = a := by simpa using hp.2.1
    subst hx
    rcases t with _ | ⟨b, t'⟩
    · have hxv : x = v := by simpa using hp.2.2
      exact absurd (hxv ▸ ha) hv
    · have hadj : b ∈ neighborsCoord x m := (List.chain'_cons.mp hp.1).1
      by_cases hb : b ∈ vis
      · have hbp : IsPath m b v (b :: t') := by
          refine ⟨(List.chain'_cons.mp hp.1).2, rfl, ?_⟩
          have := hp.2.2
          simpa using this
        obtain ⟨u, q, hu, hP, hq, hlen⟩ := ih b v hbp hb hv
        refine ⟨u, x :: q, hu, hP, isPath_cons m x b u q hadj hq, ?_⟩
        simp only [List.length_cons] at hlen ⊢
        omega
      · refine ⟨x, [x], ha, ?_, isPath_singleton m x, by simp⟩
        by_contra hP
        exact hb (hcl x ha hP b hadj)

end MazeSpec

namespace MazeSpec

/-- The facts about the predecessor dict, visited set and the distance
labelling `dmap` that survive until the end of the BFS loop (also when
it breaks on the goal). -/
structure BfsBase (m : Maze) (dmap : Coord → Nat) (s : BfsState) : Prop where
  start_vis : ((0, 0) : Coord) ∈ s.visited
  dmap_start : dmap (0, 0) = 0
  cf_start : s.cameFrom (0, 0) = none
  vis_bounds : s.visited ⊆ boundsFinset m
  dmap_bound : ∀ v ∈ s.visited, dmap v + 1 ≤ s.visited.card
  parent : ∀ v ∈ s.visited, v ≠ (0, 0) →
    ∃ u, s.cameFrom v = some u ∧ u ∈ s.visited ∧ v ∈ neighborsCoord u m ∧
      dmap v = dmap u + 1
  lower : ∀ v ∈ s.visited, ∀ p, IsPath m (0, 0) v p → dmap v + 1 ≤ p.length
  found_vis : s.found = true → ((m.rows - 1, m.cols - 1) : Coord) ∈ s.visited

/-- The full loop invariant of `solve_bfs` while the loop is running. -/
structure BfsInvFull (m : Maze) (dmap : Coord → Nat) (s : BfsState) extends
    BfsBase m dmap s : Prop where
  queue_vis : ∀ v ∈ s.queue, v ∈ s.visited
  sorted : s.queue.Pairwise (fun a b => dmap a ≤ dmap b ∧ dmap b ≤ dmap a + 1)
  closure : ∀ u ∈ s.visited, u ∉ s.queue → ∀ v ∈ neighborsCoord u m, v ∈ s.visited
  notfound : s.found = false

/-- The invariant holds initially (`1 ≤ rows`, `1 ≤ cols`). -/
theorem bfsInv_init (m : Maze) (hr : 1 ≤ m.rows) (hc : 1 ≤ m.cols) :
    BfsInvFull m (fun _ => 0) (bfsInit (0, 0)) := by
  refine ⟨⟨?_, rfl, rfl, ?_, ?_, ?_, ?_, ?_⟩, ?_, ?_, ?_, rfl⟩
  · simp [bfsInit]
  · intro p hp
    simp [bfsInit] at hp
    subst hp
    rw [mem_boundsFinset]
    exact ⟨hr, hc⟩
  · intro v hv
    simp [bfsInit]
  · intro v hv hne
    simp [bfsInit] at hv
    exact absurd hv hne
  · intro v hv p hp
    simp [bfsInit] at hv
    subst hv
    exact isPath_length_pos m _ _ p hp
  · intro h
    simp [bfsInit] at h
  · intro v hv
    simp [bfsInit] at hv ⊢
    exact hv
  · simp [bfsInit]
  · intro u hu hq v hv
    simp [bfsInit] at hu hq
    exact absurd hu hq

/-- A stopped state is a fixed point of the loop. -/
theorem bfsLoop_stopped (m : Maze) (endC : Coord) (fuel : Nat) (s : BfsState)
    (h : s.queue = [] ∨ s.found = true) : bfsLoop m endC fuel s = s := by
  cases fuel with
  | zero => rfl
  | succ n =>
    rw [bfsLoop, if_pos h]

/-- Walking the predecessor dict back from a visited cell yields the
recorded path from the start, of length `dmap v + 1`. -/
theorem reconstructGo_spec (m : Maze) (cf : Coord → Option Coord)
    (dmap : Coord → Nat) (vis : Finset Coord)
    (hd0 : dmap (0, 0) = 0) (hcfs : cf (0, 0) = none)
    (hparent : ∀ v ∈ vis, v ≠ (0, 0) →
      ∃ u, cf v = some u ∧ u ∈ vis ∧ v ∈ neighborsCoord u m ∧ dmap v = dmap u + 1) :
    ∀ (k : Nat) (v : Coord), v ∈ vis → dmap v = k →
      ∀ (acc : List Coord) (fuel : Nat), k + 2 ≤ fuel →
        ∃ p, reconstructGo cf fuel (some v) acc = some (p ++ acc) ∧
          IsPath m (0, 0) v p ∧ p.length = k + 1 := by
  intro k
  induction k using Nat.strong_induction_on with
  | _ k ih =>
    intro v hv hdv acc fuel hfuel
    by_cases h0 : v = (0, 0)
    · subst h0
      obtain ⟨f1, rfl⟩ : ∃ f1, fuel = f1 + 1 := ⟨fuel - 1, by omega⟩
      obtain ⟨f2, rfl⟩ : ∃ f2, f1 = f2 + 1 := ⟨f1 - 1, by omega⟩
      have hk0 : k = 0 := by rw [← hdv]; exact hd0
      refine ⟨[(0, 0)], ?_, isPath_singleton m (0, 0), by simp [hk0]⟩
      rw [reconstructGo, hcfs, reconstructGo]
      simp
    · obtain ⟨u, hcfv, hu, hadj, hstep⟩ := hparent v hv h0
      have hk : 1 ≤ k := by omega
      obtain ⟨f1, rfl⟩ : ∃ f1, fuel = f1 + 1 := ⟨fuel - 1, by omega⟩
      obtain ⟨p', hrec, hpath, hlen⟩ := ih (k - 1) (by omega) u hu (by omega)
        (v :: acc) f1 (by omega)
      refine ⟨p' ++ [v], ?_, isPath_snoc m (0, 0) u v p' hpath hadj, ?_⟩
      · rw [reconstructGo, hcfv, hrec, List.append_assoc]
        simp
      · simp only [List.length_append, List.length_singleton, hlen]
        omega

end MazeSpec

namespace MazeSpec

/-- One push of the neighbour loop of `solve_bfs`, as a named function. -/
def bfsPush (cur : Coord) (st : BfsState) (n : Coord) : BfsState :=
  if n ∈ st.visited then st
  else
    { st with
      visited := insert n st.visited,
      cameFrom := updateCF st.cameFrom n (some cur),
      queue := st.queue ++ [n],
      maxFrontier := max st.maxFrontier (st.queue.length + 1) }

theorem bfsExpand_eq_foldl (m : Maze) (cur : Coord) (s : BfsState) :
    bfsExpand m cur s = (neighborsCoord cur m).foldl (bfsPush cur) s := rfl

/-- The invariant of the neighbour loop of `solve_bfs`, parametrised by
the still-unprocessed suffix `l` of the popped cell's neighbour list. -/
structure BfsMid (m : Maze) (cur : Coord) (l : List Coord) (dmap : Coord → Nat)
    (st : BfsState) extends BfsBase m dmap st : Prop where
  queue_vis : ∀ v ∈ st.queue, v ∈ st.visited
  sorted : st.queue.Pairwise (fun a b => dmap a ≤ dmap b ∧ dmap b ≤ dmap a + 1)
  notfound : st.found = false
  cur_vis : cur ∈ st.visited
  curBound : ∀ b ∈ st.queue, dmap cur ≤ dmap b ∧ dmap b ≤ dmap cur + 1
  closure_rest : ∀ u ∈ st.visited, u ∉ st.queue → u ≠ cur →
    ∀ v ∈ neighborsCoord u m, v ∈ st.visited
  curClosure : ∀ v ∈ neighborsCoord cur m, v ∈ st.visited ∨ v ∈ l

/-- An unvisited cell is at distance at least `dmap cur + 1` from the
start: any path to it crosses the frontier, whose labels are at least
`dmap cur`. -/
theorem bfs_fresh_lower (m : Maze) (cur n : Coord) (l : List Coord)
    (dmap : Coord → Nat) (st : BfsState) (mid : BfsMid m cur l dmap st)
    (hn : n ∉ st.visited) :
    ∀ p, IsPath m (0, 0) n p → dmap cur + 2 ≤ p.length := by
  intro p hp
  have hcl : ∀ u ∈ st.visited, ¬ (u ∈ st.queue ∨ u = cur) →
      ∀ v ∈ neighborsCoord u m, v ∈ st.visited := by
    intro u hu hP v hv
    push_neg at hP
    exact mid.closure_rest u hu hP.1 hP.2 v hv
  obtain ⟨u, q, hu, hP, hq, hlen⟩ := path_crossing m st.visited
    (fun u => u ∈ st.queue ∨ u = cur) hcl p (0, 0) n hp mid.start_vis hn
  have hcu : dmap cur ≤ dmap u := by
    rcases hP with h | h
    · exact (mid.curBound u h).1
    · rw [h]
  have hlow := mid.lower u hu q hq
  omega

set_option maxHeartbeats 1000000 in
/-- Processing the rest of the neighbour list preserves the neighbour-loop
invariant (for a suitably extended distance labelling) and does not
increase the termination measure. -/
theorem bfsExpandFold (m : Maze) (cur : Coord) :
    ∀ (l : List Coord) (st : BfsState) (dmap : Coord → Nat),
      (∀ n ∈ l, n ∈ neighborsCoord cur m) →
      BfsMid m cur l dmap st →
      ∃ dmap', BfsMid m cur [] dmap' (l.foldl (bfsPush cur) st) ∧
        (l.foldl (bfsPush cur) st).queue.length +
            2 * ((boundsFinset m).card - (l.foldl (bfsPush cur) st).visited.card) ≤
          st.queue.length + 2 * ((boundsFinset m).card - st.visited.card) := by
  intro l
  induction l with
  | nil =>
    intro st dmap _ mid
    exact ⟨dmap, mid, le_refl _⟩
  | cons n l' ih =>
    intro st dmap hl mid
    have hn_nbr : n ∈ neighborsCoord cur m := hl n (List.mem_cons_self n l')
    have hl' : ∀ x ∈ l', x ∈ neighborsCoord cur m :=
      fun x hx => hl x (List.mem_cons_of_mem n hx)
    rw [List.foldl_cons]
    by_cases hn : n ∈ st.visited
    · have hpush : bfsPush cur st n = st := by simp [bfsPush, hn]
      rw [hpush]
      refine ih st dmap hl' ?_
      refine ⟨mid.toBfsBase, mid.queue_vis, mid.sorted, mid.notfound, mid.cur_vis,
        mid.curBound, mid.closure_rest, ?_⟩
      intro v hv
      rcases mid.curClosure v hv with h | h
      · exact Or.inl h
      · rcases List.mem_cons.mp h with h1 | h1
        · exact Or.inl (h1 ▸ hn)
        · exact Or.inr h1
    · have hne0 : n ≠ (0, 0) := fun h => hn (h ▸ mid.start_vis)
      have hcurne : cur ≠ n := fun h => hn (h ▸ mid.cur_vis)
      have hpush : bfsPush cur st n =
          { st with
            visited := insert n st.visited,
            cameFrom := updateCF st.cameFrom n (some cur),
            queue := st.queue ++ [n],
            maxFrontier := max st.maxFrontier (st.queue.length + 1) } := by
        simp [bfsPush, hn]
      have hcB : st.visited.card + 1 ≤ (boundsFinset m).card := by
        have hsub : insert n st.visited ⊆ boundsFinset m := by
          refine Finset.insert_subset ?_ mid.vis_bounds
          rw [mem_boundsFinset]
          have hcb := (mem_boundsFinset m cur).mp (mid.vis_bounds mid.cur_vis)
          exact neighborsCoord_bounds m cur n hcb.1 hcb.2 hn_nbr
        have hcard := Finset.card_le_card hsub
        rw [Finset.card_insert_of_not_mem hn] at hcard
        exact hcard
      have hmid' : BfsMid m cur l'
          (fun v => if v = n then dmap cur + 1 else dmap v) (bfsPush cur st n) := by
        rw [hpush]
        have hdcur : (fun v => if v = n then dmap cur + 1 else dmap v) cur = dmap cur :=
          if_neg hcurne
        refine ⟨⟨?_, ?_, ?_, ?_, ?_, ?_, ?_, ?_⟩, ?_, ?_, mid.notfound,
          Finset.mem_insert_of_mem mid.cur_vis, ?_, ?_, ?_⟩
        · exact Finset.mem_insert_of_mem mid.start_vis
        · dsimp only
          rw [if_neg (fun h => hne0 h.symm)]
          exact mid.dmap_start
        · dsimp only
          rw [updateCF, if_neg (fun h => hne0 h.symm)]
          exact mid.cf_start
        · refine Finset.insert_subset ?_ mid.vis_bounds
          rw [mem_boundsFinset]
          have hcb := (mem_boundsFinset m cur).mp (mid.vis_bounds mid.cur_vis)
          exact neighborsCoord_bounds m cur n hcb.1 hcb.2 hn_nbr
        · intro v hv
          dsimp only
          rw [Finset.card_insert_of_not_mem hn]
          rcases Finset.mem_insert.mp hv with hv1 | hv1
          · rw [if_pos hv1]
            have := mid.dmap_bound cur mid.cur_vis
            omega
          · have hvn : v ≠ n := fun h => hn (h ▸ hv1)
            rw [if_neg hvn]
            have := mid.dmap_bound v hv1
            omega
        · intro v hv hvne
          dsimp only
          rcases Finset.mem_insert.mp hv with hv1 | hv1
          · subst hv1
            refine ⟨cur, ?_, Finset.mem_insert_of_mem mid.cur_vis, hn_nbr, ?_⟩
            · rw [updateCF, if_pos rfl]
            · rw [if_pos rfl, if_neg hcurne]
          · have hvn : v ≠ n := fun h => hn (h ▸ hv1)
            obtain ⟨u, hcf, hu, hadj, hstep⟩ := mid.parent v hv1 hvne
            have hun : u ≠ n := fun h => hn (h ▸ hu)
            refine ⟨u, ?_, Finset.mem_insert_of_mem hu, hadj, ?_⟩
            · rw [updateCF, if_neg hvn]
              exact hcf
            · rw [if_neg hvn, if_neg hun]
              exact hstep
        · intro v hv p hp
          dsimp only
          rcases Finset.mem_insert.mp hv with hv1 | hv1
          · subst hv1
            rw [if_pos rfl]
            have := bfs_fresh_lower m cur v (v :: l') dmap st mid hn p hp
            omega
          · have hvn : v ≠ n := fun h => hn (h ▸ hv1)
            rw [if_neg hvn]
            exact mid.lower v hv1 p hp
        · intro h
          rw [mid.notfound] at h
          exact absurd h (by simp)
        · intro v hv
          rcases List.mem_append.mp hv with h | h
          · exact Finset.mem_insert_of_mem (mid.queue_vis v h)
          · rw [List.mem_singleton.mp h]
            exact Finset.mem_insert_self n _
        · rw [List.pairwise_append]
          refine ⟨?_, List.pairwise_singleton _ n, ?_⟩
          · refine mid.sorted.imp_of_mem ?_
            intro a b ha hb hab
            have han : a ≠ n := fun h => hn (h ▸ mid.queue_vis a ha)
            have hbn : b ≠ n := fun h => hn (h ▸ mid.queue_vis b hb)
            rw [if_neg han, if_neg hbn]
            exact hab
          · intro a ha b hb
            rw [List.mem_singleton.mp hb]
            have han : a ≠ n := fun h => hn (h ▸ mid.queue_vis a ha)
            have hq := mid.curBound a ha
            rw [if_neg han, if_pos rfl]
            omega
        · intro b hb
          dsimp only
          rw [if_neg hcurne]
          rcases List.mem_append.mp hb with h | h
          · have hbn : b ≠ n := fun hh => hn (hh ▸ mid.queue_vis b h)
            rw [if_neg hbn]
            exact mid.curBound b h
          · rw [List.mem_singleton.mp h, if_pos rfl]
            omega
        · intro u hu hq hune v hv
          rcases Finset.mem_insert.mp hu with hu1 | hu1
          · exfalso
            rw [hu1] at hq
            exact hq (List.mem_append_right _ (List.mem_singleton_self n))
          · have hq' : u ∉ st.queue := fun h => hq (List.mem_append_left _ h)
            exact Finset.mem_insert_of_mem (mid.closure_rest u hu1 hq' hune v hv)
        · intro v hv
          rcases mid.curClosure v hv with h | h
          · exact Or.inl (Finset.mem_insert_of_mem h)
          · rcases List.mem_cons.mp h with h1 | h1
            · exact Or.inl (by rw [h1]; exact Finset.mem_insert_self n _)
            · exact Or.inr h1
      obtain ⟨dmap', hmid'', hmeas⟩ := ih (bfsPush cur st n)
        (fun v => if v = n then dmap cur + 1 else dmap v) hl' hmid'
      refine ⟨dmap', hmid'', ?_⟩
      have hq' : (bfsPush cur st n).queue.length = st.queue.length + 1 := by
        rw [hpush]
        simp
      have hc' : (bfsPush cur st n).visited.card = st.visited.card + 1 := by
        rw [hpush]
        exact Finset.card_insert_of_not_mem hn
      omega

end MazeSpec

namespace MazeSpec

set_option maxHeartbeats 800000 in
/-- One iteration of the `while queue` loop of `solve_bfs` preserves the
invariant (full invariant while the goal has not been popped, the base
facts always) and strictly decreases the termination measure. -/
theorem bfsStep_inv (m : Maze) (dmap : Coord → Nat) (s : BfsState)
    (inv : BfsInvFull m dmap s) (hne : s.queue ≠ []) :
    ∃ dmap', BfsBase m dmap' (bfsStep m (m.rows - 1, m.cols - 1) s) ∧
      ((bfsStep m (m.rows - 1, m.cols - 1) s).found = false →
        BfsInvFull m dmap' (bfsStep m (m.rows - 1, m.cols - 1) s)) ∧
      (bfsStep m (m.rows - 1, m.cols - 1) s).queue.length +
          2 * ((boundsFinset m).card -
            (bfsStep m (m.rows - 1, m.cols - 1) s).visited.card) <
        s.queue.length + 2 * ((boundsFinset m).card - s.visited.card) := by
  obtain ⟨q, cf, vis, nexp, mf, fn⟩ := s
  rcases q with _ | ⟨cur, rest⟩
  · exact absurd rfl hne
  · have hcurvis : cur ∈ vis := inv.queue_vis cur (List.mem_cons_self cur rest)
    by_cases hcur : cur = (m.rows - 1, m.cols - 1)
    · have hstep : bfsStep m (m.rows - 1, m.cols - 1) ⟨cur :: rest, cf, vis, nexp, mf, fn⟩ =
          { queue := rest, cameFrom := cf, visited := vis, nodesExpanded := nexp + 1,
            maxFrontier := max mf rest.length, found := true } := by
        simp [bfsStep, hcur]
      rw [hstep]
      refine ⟨dmap, ⟨inv.start_vis, inv.dmap_start, inv.cf_start, inv.vis_bounds,
        inv.dmap_bound, inv.parent, inv.lower, ?_⟩, ?_, ?_⟩
      · intro _
        exact hcur ▸ hcurvis
      · intro h
        simp at h
      · simp only [List.length_cons]
        omega
    · have hstep : bfsStep m (m.rows - 1, m.cols - 1) ⟨cur :: rest, cf, vis, nexp, mf, fn⟩ =
          bfsExpand m cur
            { queue := rest, cameFrom := cf, visited := vis, nodesExpanded := nexp + 1,
              maxFrontier := max mf rest.length, found := fn } := by
        simp [bfsStep, hcur]
      have hfn : fn = false := inv.notfound
      subst hfn
      rw [hstep, bfsExpand_eq_foldl]
      have hmid : BfsMid m cur (neighborsCoord cur m) dmap
          { queue := rest, cameFrom := cf, visited := vis, nodesExpanded := nexp + 1,
            maxFrontier := max mf rest.length, found := false } := by
        refine ⟨⟨inv.start_vis, inv.dmap_start, inv.cf_start, inv.vis_bounds,
          inv.dmap_bound, inv.parent, inv.lower, ?_⟩, ?_, ?_, rfl, hcurvis, ?_, ?_, ?_⟩
        · intro h
          simp at h
        · intro v hv
          exact inv.queue_vis v (List.mem_cons_of_mem cur hv)
        · exact inv.sorted.of_cons
        · exact fun b hb => (List.pairwise_cons.mp inv.sorted).1 b hb
        · intro u hu huq hune v hv
          refine inv.closure u hu ?_ v hv
          intro hmem
          rcases List.mem_cons.mp hmem with h | h
          · exact hune h
          · exact huq h
        · exact fun v hv => Or.inr hv
      obtain ⟨dmap', hmid', hmeas⟩ := bfsExpandFold m cur (neighborsCoord cur m)
        _ dmap (fun n hn => hn) hmid
      refine ⟨dmap', hmid'.toBfsBase, ?_, ?_⟩
      · intro _
        refine ⟨hmid'.toBfsBase, hmid'.queue_vis, hmid'.sorted, ?_, hmid'.notfound⟩
        intro u hu huq v hv
        by_cases hu_cur : u = cur
        · subst hu_cur
          rcases hmid'.curClosure v hv with h | h
          · exact h
          · exact absurd h (List.not_mem_nil v)
        · exact hmid'.closure_rest u hu huq hu_cur v hv
      · simp only [List.length_cons] at hmeas ⊢
        omega

/-- Given enough fuel, the BFS loop halts (queue empty or goal popped)
with the base facts intact, and with the full invariant when it drained
the queue without popping the goal. -/
theorem bfsLoop_inv (m : Maze) :
    ∀ (fuel : Nat) (s : BfsState) (dmap : Coord → Nat), BfsInvFull m dmap s →
      s.queue.length + 2 * ((boundsFinset m).card - s.visited.card) ≤ fuel →
      ∃ dmap',
        ((bfsLoop m (m.rows - 1, m.cols - 1) fuel s).queue = [] ∨
          (bfsLoop m (m.rows - 1, m.cols - 1) fuel s).found = true) ∧
        BfsBase m dmap' (bfsLoop m (m.rows - 1, m.cols - 1) fuel s) ∧
        ((bfsLoop m (m.rows - 1, m.cols - 1) fuel s).found = false →
          BfsInvFull m dmap' (bfsLoop m (m.rows - 1, m.cols - 1) fuel s)) := by
  intro fuel
  induction fuel with
  | zero =>
    intro s dmap inv hm
    have hq : s.queue = [] := List.length_eq_zero.mp (by omega)
    exact ⟨dmap, Or.inl hq, inv.toBfsBase, fun _ => inv⟩
  | succ n ih =>
    intro s dmap inv hm
    rw [bfsLoop]
    by_cases hs : s.queue = [] ∨ s.found = true
    · rw [if_pos hs]
      exact ⟨dmap, hs, inv.toBfsBase, fun _ => inv⟩
    · rw [if_neg hs]
      push_neg at hs
      obtain ⟨dmap1, base1, hfull1, hlt⟩ := bfsStep_inv m dmap s inv hs.1
      by_cases hf : (bfsStep m (m.rows - 1, m.cols - 1) s).found = true
      · rw [bfsLoop_stopped m _ n _ (Or.inr hf)]
        refine ⟨dmap1, Or.inr hf, base1, ?_⟩
        intro h
        rw [h] at hf
        exact absurd hf (by simp)
      · rw [Bool.not_eq_true] at hf
        exact ih (bfsStep m (m.rows - 1, m.cols - 1) s) dmap1 (hfull1 hf) (by omega)

end MazeSpec

namespace MazeSpec

set_option maxHeartbeats 800000 in
/-- Claim C2: on any maze (`rows ≥ 1`, `cols ≥ 1`) whose open-boundary
graph has a path from `(0,0)` to `(rows-1, cols-1)`, `solve_bfs`
terminates (any fuel covering the `2·rows·cols` loop bound) and returns
a path between those cells whose edge count is minimal among all such
paths. -/
theorem C2_bfs_shortest_path (m : Maze) (hr : 1 ≤ m.rows) (hc : 1 ≤ m.cols)
    (fuel fuelPath : Nat) (hfuel : 2 * (m.rows * m.cols) ≤ fuel)
    (hfp : m.rows * m.cols + 1 ≤ fuelPath)
    (hconn : ∃ p, IsPath m (0, 0) (m.rows - 1, m.cols - 1) p) :
    ∃ path nexp maxf, solveBfs m fuel fuelPath = some (path, nexp, maxf) ∧
      IsPath m (0, 0) (m.rows - 1, m.cols - 1) path ∧
      ∀ q, IsPath m (0, 0) (m.rows - 1, m.cols - 1) q → path.length ≤ q.length := by
  have hN : 1 ≤ m.rows * m.cols := Nat.one_le_iff_ne_zero.mpr (by positivity)
  have hB : (boundsFinset m).card = m.rows * m.cols := by
    rw [boundsFinset, Finset.card_product, Finset.card_range, Finset.card_range]
  have inv0 := bfsInv_init m hr hc
  have hq0 : (bfsInit (0, 0)).queue.length = 1 := by simp [bfsInit]
  have hv0 : (bfsInit (0, 0)).visited.card = 1 := by simp [bfsInit]
  obtain ⟨dmap', hstop, base, hfull⟩ := bfsLoop_inv m fuel (bfsInit (0, 0))
    (fun _ => 0) inv0 (by rw [hq0, hv0, hB]; omega)
  have hend : ((m.rows - 1, m.cols - 1) : Coord) ∈
      (bfsLoop m (m.rows - 1, m.cols - 1) fuel (bfsInit (0, 0))).visited := by
    by_cases hfound : (bfsLoop m (m.rows - 1, m.cols - 1) fuel (bfsInit (0, 0))).found = true
    · exact base.found_vis hfound
    · have hqe : (bfsLoop m (m.rows - 1, m.cols - 1) fuel (bfsInit (0, 0))).queue = [] :=
        hstop.resolve_right hfound
      rw [Bool.not_eq_true] at hfound
      have full := hfull hfound
      by_contra hend
      obtain ⟨p, hp⟩ := hconn
      obtain ⟨u, qq, hu, hP, _, _⟩ := path_crossing m
        (bfsLoop m (m.rows - 1, m.cols - 1) fuel (bfsInit (0, 0))).visited
        (fun u => u ∈ (bfsLoop m (m.rows - 1, m.cols - 1) fuel (bfsInit (0, 0))).queue)
        (fun u hu hP v hv => full.closure u hu hP v hv)
        p (0, 0) (m.rows - 1, m.cols - 1) hp base.start_vis hend
      rw [hqe] at hP
      exact List.not_mem_nil u hP
  have hdb : dmap' (m.rows - 1, m.cols - 1) + 1 ≤ m.rows * m.cols := by
    have h1 := base.dmap_bound _ hend
    have h2 := Finset.card_le_card base.vis_bounds
    omega
  obtain ⟨p₀, hrec, hpath, hlen⟩ := reconstructGo_spec m
    (bfsLoop m (m.rows - 1, m.cols - 1) fuel (bfsInit (0, 0))).cameFrom dmap'
    (bfsLoop m (m.rows - 1, m.cols - 1) fuel (bfsInit (0, 0))).visited
    base.dmap_start base.cf_start base.parent
    (dmap' (m.rows - 1, m.cols - 1)) (m.rows - 1, m.cols - 1) hend rfl
    [] fuelPath (by omega)
  refine ⟨p₀, (bfsLoop m (m.rows - 1, m.cols - 1) fuel (bfsInit (0, 0))).nodesExpanded,
    (bfsLoop m (m.rows - 1, m.cols - 1) fuel (bfsInit (0, 0))).maxFrontier, ?_, hpath, ?_⟩
  · show (if _ then _ else _) = _
    rw [if_pos hstop, reconstructPath, hrec]
    simp
  · intro q hq
    have := base.lower _ hend q hq
    omega

/-- Witness for C2 at a concrete instance: the 1×2 corridor maze, fuel
4, reconstruction fuel 3. -/
theorem C2_bfs_shortest_path_witness :
    (1 ≤ (corridor 2).rows ∧ 1 ≤ (corridor 2).cols ∧
      2 * ((corridor 2).rows * (corridor 2).cols) ≤ 4 ∧
      (corridor 2).rows * (corridor 2).cols + 1 ≤ 3 ∧
      IsPath (corridor 2) (0, 0) ((corridor 2).rows - 1, (corridor 2).cols - 1)
        [(0, 0), (0, 1)]) ∧
    (∃ path nexp maxf, solveBfs (corridor 2) 4 3 = some (path, nexp, maxf) ∧
      IsPath (corridor 2) (0, 0) ((corridor 2).rows - 1, (corridor 2).cols - 1) path ∧
      ∀ q, IsPath (corridor 2) (0, 0) ((corridor 2).rows - 1, (corridor 2).cols - 1) q →
        path.length ≤ q.length) := by
  have hp : IsPath (corridor 2) (0, 0) ((corridor 2).rows - 1, (corridor 2).cols - 1)
      [(0, 0), (0, 1)] :=
    ⟨List.chain'_cons.mpr ⟨by decide, List.chain'_singleton _⟩, rfl, rfl⟩
  exact ⟨⟨by decide, by decide, by decide, by decide, hp⟩,
    C2_bfs_shortest_path (corridor 2) (by decide) (by decide) 4 3 (by decide) (by decide)
      ⟨[(0, 0), (0, 1)], hp⟩⟩

end MazeSpec
